import Mathlib

/-!
Verification of the placeholder-substitution engine of
`preencher_relatorio_gui.py` against its natural-language specification.

The Python functions `normalize_cnpj`, `replace_in_paragraph`,
`add_hyperlink` and the string primitives they rely on
(`str.replace`, `str.split`, `in`, `re.findall` with the placeholder
pattern `\[([A-Z0-9_]+)\]`) are shallowly embedded below.  Strings are
modelled as Lean `String`s (lists of characters), a docx run as an
opaque style tag plus its text, and the paragraph produced by
`replace_in_paragraph` as a list of elements (text runs and hyperlink
elements) together with the list of warnings the function prints.
-/

namespace Relatorio

/-- Character class `[A-Z0-9_]` of `PLACEHOLDER_PATTERN`. -/
def isTok (c : Char) : Bool :=
  ('A' ≤ c && c ≤ 'Z') || ('0' ≤ c && c ≤ '9') || c == '_'

/-- The bracketed token `[K]` as a character list. -/
def pattL (K : List Char) : List Char := '[' :: (K ++ [']'])

/-- Character-by-character test that `p` starts `s`. -/
def isPre : List Char → List Char → Bool
  | [], _ => true
  | _ :: _, [] => false
  | a :: as, b :: bs => a == b && isPre as bs

/-- Python's substring test `pat in s`. -/
def containsL (pat : List Char) : List Char → Bool
  | [] => pat.isEmpty
  | c :: rest => isPre pat (c :: rest) || containsL pat rest

/-- Fuelled engine for Python `s.replace(pat, rep)`: replaces the
non-overlapping occurrences of `pat` left to right.  The fuel only
serves to make the recursion structural; `s.length` is always enough. -/
def replGo (pat rep : List Char) : Nat → List Char → List Char
  | _, [] => []
  | 0, s => s
  | fuel + 1, c :: rest =>
    if !pat.isEmpty && isPre pat (c :: rest) then
      rep ++ replGo pat rep fuel (List.drop (pat.length - 1) rest)
    else
      c :: replGo pat rep fuel rest

/-- Python `s.replace(pat, rep)` on character lists (for nonempty `pat`). -/
def replL (pat rep s : List Char) : List Char := replGo pat rep s.length s

/-- Fuelled engine for Python `s.split(pat)`. -/
def splitGo (pat : List Char) : Nat → List Char → List (List Char)
  | _, [] => [[]]
  | 0, s => [s]
  | fuel + 1, c :: rest =>
    if !pat.isEmpty && isPre pat (c :: rest) then
      [] :: splitGo pat fuel (List.drop (pat.length - 1) rest)
    else
      match splitGo pat fuel rest with
      | [] => [[c]]
      | seg :: segs => (c :: seg) :: segs

/-- Python `s.split(pat)` on character lists (for nonempty `pat`). -/
def splitOnL (pat s : List Char) : List (List Char) := splitGo pat s.length s

/-- Test that a character list starts with the closing bracket. -/
def isCloseHead : List Char → Bool
  | ']' :: _ => true
  | _ => false

/-- Fuelled engine for `PLACEHOLDER_PATTERN.findall`: scans left to
right; at each `[` it takes the maximal run of `[A-Z0-9_]` characters
and records it when it is nonempty and followed by `]`, resuming after
the closing bracket; otherwise scanning resumes one character later. -/
def findGo : Nat → List Char → List (List Char)
  | _, [] => []
  | 0, _ => []
  | fuel + 1, c :: rest =>
    if c == '[' && isCloseHead (List.dropWhile isTok rest)
        && !(List.takeWhile isTok rest).isEmpty then
      List.takeWhile isTok rest :: findGo fuel (List.dropWhile isTok rest).tail
    else findGo fuel rest

/-- `PLACEHOLDER_PATTERN.findall(s)` on character lists. -/
def findTokensL (s : List Char) : List (List Char) := findGo s.length s

/-- Python `s.replace(pat, rep)`. -/
def pyReplace (s pat rep : String) : String := String.mk (replL pat.data rep.data s.data)

/-- Python `pat in s`. -/
def pyContains (s pat : String) : Bool := containsL pat.data s.data

/-- Python `s.split(pat)`. -/
def pySplit (s pat : String) : List String := (splitOnL pat.data s.data).map String.mk

/-- Python `"".join(strings)`. -/
def joinS : List String → String
  | [] => ""
  | s :: rest => s ++ joinS rest

/-- `PLACEHOLDER_PATTERN.findall(s)`, returning the token names. -/
def pyFindTokens (s : String) : List String := (findTokensL s.data).map String.mk

/-- A docx text run: an opaque style tag (`none` is the default style a
freshly added run carries) and its text. -/
structure Run where
  style : Option Nat
  text : String
deriving DecidableEq

/-- An element of the rewritten paragraph: a text run, or the
`w:hyperlink` element built by `add_hyperlink` (target URL and display
text; its fixed blue/underline styling is not modelled). -/
inductive PElem where
  | run : Option Nat → String → PElem
  | hlink : String → String → PElem
deriving DecidableEq

/-- The four link-related mapping keys excluded from plain substitution. -/
def linkKeyNames : List String :=
  ["LINK_DRIVE", "LINK_DRIVE_TEXT", "LINK_PARA_DOWNLOAD", "LINK_PARA_DOWNLOAD_TEXT"]

/-- `non_link_keys` of `replace_in_paragraph`. -/
def nonLinkKeys (m : List (String × String)) : List (String × String) :=
  m.filter (fun kv => !(linkKeyNames.contains kv.1))

/-- Python `mapping.get(k)` read as a string, with `""` for an absent
key (the mapping's values are strings, and `get` is only used in
truthiness tests and after such a test). -/
def lookupStr (m : List (String × String)) (k : String) : String :=
  (List.lookup k m).getD ""

/-- The inner loop `for key, val in non_link_keys.items():
t = t.replace('[' + key + ']', val or "")`. -/
def substAll (nl : List (String × String)) (s : String) : String :=
  nl.foldl (fun acc kv => pyReplace acc ("[" ++ kv.1 ++ "]") kv.2) s

/-- The `for idx, part in enumerate(parts)` loop of the two link
branches: each substituted part is emitted as a run when nonempty, and
a hyperlink element is inserted between consecutive parts. -/
def linkParts (nl : List (String × String)) (url disp : String) : List String → List PElem
  | [] => []
  | [p] =>
    if substAll nl p = "" then [] else [PElem.run none (substAll nl p)]
  | p :: q :: rest =>
    (if substAll nl p = "" then ([] : List PElem) else [PElem.run none (substAll nl p)]) ++
      (PElem.hlink url disp :: linkParts nl url disp (q :: rest))

/-- `"".join(r.text for r in paragraph.runs)`. -/
def flatten (runs : List Run) : String := joinS (runs.map Run.text)

/-- The flattened text of a rewritten paragraph: concatenation of the
texts of its runs (hyperlink display text is not part of any run). -/
def flattenElems (es : List PElem) : String :=
  joinS (es.map fun e => match e with | PElem.run _ t => t | PElem.hlink _ _ => "")

/-- Guard of the `[LINK_DRIVE]` branch of `replace_in_paragraph`. -/
def driveCond (runs : List Run) (m : List (String × String)) : Prop :=
  pyContains (flatten runs) "[LINK_DRIVE]" = true ∧ lookupStr m "LINK_DRIVE" ≠ ""

/-- Guard of the `[LINK_PARA_DOWNLOAD]` branch of `replace_in_paragraph`. -/
def downloadCond (runs : List Run) (m : List (String × String)) : Prop :=
  pyContains (flatten runs) "[LINK_PARA_DOWNLOAD]" = true ∧ lookupStr m "LINK_PARA_DOWNLOAD" ≠ ""

instance (runs : List Run) (m : List (String × String)) : Decidable (driveCond runs m) := by
  unfold driveCond; infer_instance

instance (runs : List Run) (m : List (String × String)) : Decidable (downloadCond runs m) := by
  unfold downloadCond; infer_instance

/-- The per-run pass of `replace_in_paragraph`: each run's own text is
rewritten in place by the plain-key substitution loop. -/
def plainRuns (runs : List Run) (m : List (String × String)) : List Run :=
  runs.map fun r => Run.mk r.style (substAll (nonLinkKeys m) r.text)

/-- The non-link path of `replace_in_paragraph`: per-run substitution,
then the spanning-placeholder check on the re-flattened text; when
tokens remain, the paragraph is rebuilt as a single default-styled run
of the whole-string substitution and a warning carrying the remaining
token names is emitted. -/
def plainPath (runs : List Run) (m : List (String × String)) :
    List PElem × List (List String) :=
  if (pyFindTokens (flatten (plainRuns runs m))).isEmpty then
    ((plainRuns runs m).map fun r => PElem.run r.style r.text, [])
  else
    ([PElem.run none (substAll (nonLinkKeys m) (flatten (plainRuns runs m)))],
      [pyFindTokens (flatten (plainRuns runs m))])

/-- Shallow embedding of `replace_in_paragraph`.  Returns the new list
of paragraph elements together with the warnings printed (each warning
carries the list of token names found by the spanning-placeholder
check before the rebuild). -/
def replaceInParagraph (runs : List Run) (m : List (String × String)) :
    List PElem × List (List String) :=
  if driveCond runs m then
    (linkParts (nonLinkKeys m) (lookupStr m "LINK_DRIVE")
      (if lookupStr m "LINK_DRIVE_TEXT" = "" then "Link Drive" else lookupStr m "LINK_DRIVE_TEXT")
      (pySplit (flatten runs) "[LINK_DRIVE]"), [])
  else if downloadCond runs m then
    (linkParts (nonLinkKeys m) (lookupStr m "LINK_PARA_DOWNLOAD") "Link para download"
      (pySplit (flatten runs) "[LINK_PARA_DOWNLOAD]"), [])
  else
    plainPath runs m

/-- Shallow embedding of `normalize_cnpj`: strip the non-digit
characters and demand exactly 14 digits; `none` models the raised
`ValueError`. -/
def normalize_cnpj (s : String) : Option String :=
  if (s.data.filter Char.isDigit).length = 14 then some (String.mk (s.data.filter Char.isDigit))
  else none

/-- Concatenation of character lists (proof-side view of `joinS`). -/
def joinL : List (List Char) → List Char
  | [] => []
  | l :: ls => l ++ joinL ls

/-- Proof-side view of `substAll` on character lists. -/
def substAllL (nl : List (List Char × List Char)) (s : List Char) : List Char :=
  nl.foldl (fun acc kv => replL (pattL kv.1) kv.2 acc) s

/-! Basic facts about the embedded string primitives. -/

theorem isPre_iff {p s : List Char} : isPre p s = true ↔ ∃ t, s = p ++ t := by
  induction p generalizing s with
  | nil => exact ⟨fun _ => ⟨s, rfl⟩, fun _ => rfl⟩
  | cons a as ih =>
    cases s with
    | nil => simp [isPre]
    | cons b bs =>
      simp only [isPre, Bool.and_eq_true, beq_iff_eq]
      constructor
      · rintro ⟨rfl, h⟩
        obtain ⟨t, rfl⟩ := ih.mp h
        exact ⟨t, rfl⟩
      · rintro ⟨t, ht⟩
        injection ht with h1 h2
        exact ⟨h1.symm, ih.mpr ⟨t, h2⟩⟩

theorem isPre_mem {p s : List Char} (h : isPre p s = true) : ∀ c ∈ p, c ∈ s := by
  obtain ⟨t, rfl⟩ := isPre_iff.mp h
  intro c hc
  exact List.mem_append.mpr (Or.inl hc)

theorem isPre_false_of_mem {p s : List Char} {c : Char} (hc : c ∈ p) (hs : c ∉ s) :
    isPre p s = false := by
  cases h : isPre p s
  · rfl
  · exact absurd (isPre_mem h c hc) hs

theorem isPre_append_ext {p t : List Char} (x : List Char) (h : isPre p t = true) :
    isPre p (t ++ x) = true := by
  obtain ⟨u, rfl⟩ := isPre_iff.mp h
  exact isPre_iff.mpr ⟨u ++ x, by simp⟩

theorem isPre_append_self (p t : List Char) : isPre p (p ++ t) = true :=
  isPre_iff.mpr ⟨t, rfl⟩

theorem containsL_iff {pat s : List Char} :
    containsL pat s = true ↔ ∃ a b, s = a ++ pat ++ b := by
  induction s with
  | nil =>
    cases pat with
    | nil => exact ⟨fun _ => ⟨[], [], rfl⟩, fun _ => rfl⟩
    | cons x xs =>
      constructor
      · intro h; exact absurd h (by simp [containsL])
      · rintro ⟨a, b, h⟩; exact absurd h (by simp)
  | cons c rest ih =>
    simp only [containsL, Bool.or_eq_true]
    constructor
    · rintro (h | h)
      · obtain ⟨t, ht⟩ := isPre_iff.mp h
        exact ⟨[], t, by simp [ht]⟩
      · obtain ⟨a, b, rfl⟩ := ih.mp h
        exact ⟨c :: a, b, rfl⟩
    · rintro ⟨a, b, h⟩
      cases a with
      | nil =>
        left
        simp only [List.nil_append] at h
        rw [h]
        exact isPre_append_self pat b
      | cons x a' =>
        right
        injection h with h1 h2
        exact ih.mpr ⟨a', b, h2⟩

theorem containsL_append_right {pat : List Char} (s : List Char) {t : List Char}
    (h : containsL pat t = true) : containsL pat (s ++ t) = true := by
  obtain ⟨a, b, rfl⟩ := containsL_iff.mp h
  exact containsL_iff.mpr ⟨s ++ a, b, by simp⟩

theorem containsL_append_left {pat s : List Char} (t : List Char)
    (h : containsL pat s = true) : containsL pat (s ++ t) = true := by
  obtain ⟨a, b, rfl⟩ := containsL_iff.mp h
  exact containsL_iff.mpr ⟨a, b ++ t, by simp⟩

theorem replGo_nil (pat rep : List Char) (f : Nat) : replGo pat rep f [] = [] := by
  cases f <;> rfl

theorem replGo_succ_cons (pat rep : List Char) (k : Nat) (c : Char) (rest : List Char) :
    replGo pat rep (k + 1) (c :: rest) =
      if !pat.isEmpty && isPre pat (c :: rest) then
        rep ++ replGo pat rep k (List.drop (pat.length - 1) rest)
      else c :: replGo pat rep k rest := rfl

theorem replGo_congr (pat rep : List Char) :
    ∀ f₁ : Nat, ∀ s : List Char, ∀ f₂ : Nat, s.length ≤ f₁ → s.length ≤ f₂ →
      replGo pat rep f₁ s = replGo pat rep f₂ s := by
  intro f₁
  induction f₁ with
  | zero =>
    intro s f₂ h1 _
    have hs : s = [] := List.eq_nil_of_length_eq_zero (Nat.le_zero.mp h1)
    subst hs
    rw [replGo_nil, replGo_nil]
  | succ k ih =>
    intro s f₂ h1 h2
    cases s with
    | nil => rw [replGo_nil, replGo_nil]
    | cons c rest =>
      cases f₂ with
      | zero => simp at h2
      | succ l =>
        rw [replGo_succ_cons, replGo_succ_cons]
        have hr : rest.length ≤ k := by simp at h1; omega
        have hr' : rest.length ≤ l := by simp at h2; omega
        by_cases hc : (!pat.isEmpty && isPre pat (c :: rest)) = true
        · rw [if_pos hc, if_pos hc]
          have hd : (List.drop (pat.length - 1) rest).length ≤ k := by
            rw [List.length_drop]; omega
          have hd' : (List.drop (pat.length - 1) rest).length ≤ l := by
            rw [List.length_drop]; omega
          rw [ih _ _ hd hd']
        · rw [if_neg hc, if_neg hc, ih _ _ hr hr']

theorem replL_pos {pat rep : List Char} (hp : pat ≠ []) {s : List Char}
    (h : isPre pat s = true) :
    replL pat rep s = rep ++ replL pat rep (s.drop pat.length) := by
  cases s with
  | nil =>
    cases pat with
    | nil => exact absurd rfl hp
    | cons x xs => simp [isPre] at h
  | cons c rest =>
    show replGo pat rep (rest.length + 1) (c :: rest) = _
    rw [replGo_succ_cons]
    have hcond : (!pat.isEmpty && isPre pat (c :: rest)) = true := by
      rw [h, Bool.and_true]
      cases pat with
      | nil => exact absurd rfl hp
      | cons x xs => rfl
    rw [if_pos hcond]
    congr 1
    cases pat with
    | nil => exact absurd rfl hp
    | cons x xs =>
      show replGo (x :: xs) rep rest.length (List.drop ((x :: xs).length - 1) rest) =
        replL (x :: xs) rep (List.drop xs.length rest)
      have hlen : (x :: xs).length - 1 = xs.length := by simp
      rw [hlen]
      exact replGo_congr _ _ _ _ _ (by rw [List.length_drop]; omega) (le_refl _)

theorem replL_neg {pat rep : List Char} {c : Char} {rest : List Char}
    (h : isPre pat (c :: rest) = false) :
    replL pat rep (c :: rest) = c :: replL pat rep rest := by
  show replGo pat rep (rest.length + 1) (c :: rest) = _
  rw [replGo_succ_cons, h, Bool.and_false, if_neg (by simp)]
  rfl

theorem replL_no_occ {pat rep : List Char} {c : Char} (hc : c ∈ pat) :
    ∀ {s : List Char}, c ∉ s → replL pat rep s = s := by
  intro s
  induction s with
  | nil => intro _; rfl
  | cons d rest ih =>
    intro hs
    rw [replL_neg (isPre_false_of_mem hc hs), ih (fun h => hs (List.mem_cons_of_mem _ h))]

theorem replL_self (pat rep : List Char) (hp : pat ≠ []) : replL pat rep pat = rep := by
  rw [replL_pos hp (isPre_iff.mpr ⟨[], (List.append_nil pat).symm⟩)]
  rw [List.drop_length]
  show rep ++ [] = rep
  exact List.append_nil rep

theorem pattern_data (k : String) : ("[" ++ k ++ "]").data = pattL k.data := rfl

theorem open_mem_patt (K : List Char) : '[' ∈ pattL K := List.mem_cons_self _ _

theorem close_mem_patt (K : List Char) : ']' ∈ pattL K := by simp [pattL]

theorem pyReplace_no_occ {s pat rep : String} {c : Char} (hc : c ∈ pat.data)
    (hs : c ∉ s.data) : pyReplace s pat rep = s := by
  show String.mk (replL pat.data rep.data s.data) = s
  rw [replL_no_occ hc hs]

theorem pyReplace_self {pat rep : String} (hp : pat.data ≠ []) : pyReplace pat pat rep = rep := by
  show String.mk (replL pat.data rep.data pat.data) = rep
  rw [replL_self _ _ hp]

theorem substAll_cons (kv : String × String) (nl : List (String × String)) (s : String) :
    substAll (kv :: nl) s = substAll nl (pyReplace s ("[" ++ kv.1 ++ "]") kv.2) := rfl

theorem substAll_no_open (nl : List (String × String)) {s : String} (hs : '[' ∉ s.data) :
    substAll nl s = s := by
  induction nl with
  | nil => rfl
  | cons kv nl ih =>
    rw [substAll_cons, pyReplace_no_occ (c := '[') (by rw [pattern_data]; exact open_mem_patt _) hs, ih]

theorem substAll_no_close (nl : List (String × String)) {s : String} (hs : ']' ∉ s.data) :
    substAll nl s = s := by
  induction nl with
  | nil => rfl
  | cons kv nl ih =>
    rw [substAll_cons, pyReplace_no_occ (c := ']') (by rw [pattern_data]; exact close_mem_patt _) hs, ih]

theorem append_empty_str (s : String) : s ++ "" = s := by
  show String.mk (s.data ++ []) = s
  rw [List.append_nil]

theorem flatten_single (σ : Option Nat) (t : String) : flatten [⟨σ, t⟩] = t := by
  show t ++ "" = t
  exact append_empty_str t

theorem driveCond_false {runs : List Run} {m : List (String × String)}
    (h : pyContains (flatten runs) "[LINK_DRIVE]" = false) : ¬ driveCond runs m := by
  intro hc
  have h1 := hc.1
  rw [h] at h1
  exact Bool.false_ne_true h1

theorem downloadCond_false {runs : List Run} {m : List (String × String)}
    (h : pyContains (flatten runs) "[LINK_PARA_DOWNLOAD]" = false) : ¬ downloadCond runs m := by
  intro hc
  have h1 := hc.1
  rw [h] at h1
  exact Bool.false_ne_true h1

/-! Claim theorems. -/

/-- C9: for every input string with exactly 14 digit characters,
`normalize_cnpj` returns the digit-only subsequence in order (the
filtered list is a sublist of the input, hence an in-order
subsequence); for every input whose digit count is not 14 it fails
with the invalid-input error (modelled as `none`). -/
theorem C9_normalize (s : String) :
    ((s.data.filter Char.isDigit).length = 14 →
      normalize_cnpj s = some (String.mk (s.data.filter Char.isDigit)) ∧
      (s.data.filter Char.isDigit).Sublist s.data) ∧
    ((s.data.filter Char.isDigit).length ≠ 14 → normalize_cnpj s = none) := by
  constructor
  · intro h
    exact ⟨by unfold normalize_cnpj; rw [if_pos h], List.filter_sublist _⟩
  · intro h
    unfold normalize_cnpj
    rw [if_neg h]

theorem C9_normalize_w :
    normalize_cnpj "12.345.678/0001-95" = some "12345678000195" ∧
      normalize_cnpj "123" = none := by
  constructor
  · exact (((C9_normalize "12.345.678/0001-95").1 (by decide)).1).trans (by decide)
  · exact (C9_normalize "123").2 (by decide)

/-- C7: for a paragraph with runs `["[A]", " and ", "[B]"]` (with
arbitrary styles) and the mapping `{A: "X", B: "Y"}`, each run is
rewritten independently to `"X"`, `" and "`, `"Y"`, the run count and
styles are preserved, and no fallback rebuild (warning) occurs. -/
theorem C7_run_preservation (σ₁ σ₂ σ₃ : Option Nat) :
    replaceInParagraph [⟨σ₁, "[A]"⟩, ⟨σ₂, " and "⟩, ⟨σ₃, "[B]"⟩] [("A", "X"), ("B", "Y")] =
      ([PElem.run σ₁ "X", PElem.run σ₂ " and ", PElem.run σ₃ "Y"], []) := rfl

/-- C5 counterexample: with the mapping value of LINK_DRIVE empty, the
paragraph is NOT left otherwise unchanged: its styled run is replaced
by a default-styled run and a warning is emitted, refuting the claim
at this input. -/
theorem C5_skip_unchanged_cex :
    replaceInParagraph [⟨some 1, "x [LINK_DRIVE] y"⟩] [("LINK_DRIVE", "")] ≠
      ([PElem.run (some 1) "x [LINK_DRIVE] y"], []) := by decide

/-- C8 counterexample: the mapping value `"[B]"` of key A is not
inserted verbatim: substitution continues with the later key B, so the
output text is `"x"` and the inserted text `"[B]"` is nowhere in the
result, refuting the claim at this input. -/
theorem C8_verbatim_cex :
    (replaceInParagraph [⟨none, "[A]"⟩] [("A", "[B]"), ("B", "x")]).1 =
        [PElem.run none "x"] ∧
      pyContains (flattenElems (replaceInParagraph [⟨none, "[A]"⟩]
        [("A", "[B]"), ("B", "x")]).1) "[B]" = false := by decide

/-- C10 counterexample: the input text contains the token `[K]` of the
empty-valued plain key K, yet the output text still contains `[K]`:
the per-run pass erases it, but the fallback substitution re-creates
it from the value of key A, refuting the claim that such a token is
deleted from the paragraph text. -/
theorem C10_empty_value_cex :
    pyContains (flatten [⟨none, "[K] [A"⟩, ⟨none, "]"⟩]) "[K]" = true ∧
      pyContains (flattenElems (replaceInParagraph [⟨none, "[K] [A"⟩, ⟨none, "]"⟩]
        [("K", ""), ("A", "[K]")]).1) "[K]" = true := by decide

/-- C4 counterexample: for the LINK_PARA_DOWNLOAD token the inserted
hyperlink ignores the non-empty display-text field
LINK_PARA_DOWNLOAD_TEXT = "Custom" and always uses the fixed label
"Link para download", refuting the claim for this link token. -/
theorem C4_download_display_cex :
    (replaceInParagraph [⟨none, "[LINK_PARA_DOWNLOAD]"⟩]
        [("LINK_PARA_DOWNLOAD", "https://u"), ("LINK_PARA_DOWNLOAD_TEXT", "Custom")]).1 =
        [PElem.hlink "https://u" "Link para download"] ∧
      ("Link para download" : String) ≠ "Custom" := by decide

/-- C1 counterexample: a spanning token [A] whose value "[B]" contains
a token of the earlier key B makes the fallback substitution emit the
text "[B]", so the flattened output contains the token of the plain
key B although B's value "x" is non-empty, refuting the claim at this
input. -/
theorem C1_token_creation_cex :
    pyContains (flattenElems (replaceInParagraph [⟨none, "[A"⟩, ⟨none, "]"⟩]
      [("B", "x"), ("A", "[B]")]).1) "[B]" = true := by decide

theorem linkParts_two (nl : List (String × String)) (url disp p q : String) :
    linkParts nl url disp [p, q] =
      (if substAll nl p = "" then ([] : List PElem) else [PElem.run none (substAll nl p)]) ++
        (PElem.hlink url disp ::
          (if substAll nl q = "" then ([] : List PElem)
           else [PElem.run none (substAll nl q)])) := rfl

/-- C2: for a paragraph made of two runs "[A" and "]" (any styles) and
any mapping containing the plain key A, the result is exactly one
default-styled run carrying the whole-string plain substitution of the
flattened text "[A]", and the emitted warning names the unresolved
token A. -/
theorem C2_spanning_fallback (σ τ : Option Nat) (m : List (String × String))
    (h : (List.lookup "A" m).isSome = true) :
    replaceInParagraph [⟨σ, "[A"⟩, ⟨τ, "]"⟩] m =
      ([PElem.run none (substAll (nonLinkKeys m) "[A]")], [["A"]]) := by
  have hd : ¬ driveCond [⟨σ, "[A"⟩, ⟨τ, "]"⟩] m := driveCond_false rfl
  have hdl : ¬ downloadCond [⟨σ, "[A"⟩, ⟨τ, "]"⟩] m := downloadCond_false rfl
  unfold replaceInParagraph
  rw [if_neg hd, if_neg hdl]
  have h1 : substAll (nonLinkKeys m) "[A" = "[A" := substAll_no_close _ (by decide)
  have h2 : substAll (nonLinkKeys m) "]" = "]" := substAll_no_open _ (by decide)
  have hpr : plainRuns [⟨σ, "[A"⟩, ⟨τ, "]"⟩] m = [⟨σ, "[A"⟩, ⟨τ, "]"⟩] := by
    unfold plainRuns
    rw [List.map_cons, List.map_cons, List.map_nil, h1, h2]
  unfold plainPath
  rw [hpr]
  rfl

theorem C2_spanning_fallback_w :
    replaceInParagraph [⟨some 1, "[A"⟩, ⟨some 2, "]"⟩] [("A", "hello")] =
      ([PElem.run none "hello"], [["A"]]) :=
  (C2_spanning_fallback (some 1) (some 2) [("A", "hello")] (by decide)).trans (by decide)

/-- C3: for any paragraph whose flattened text is
"See [LINK_DRIVE] here" and any mapping with LINK_DRIVE given as
"https://x.test" and LINK_DRIVE_TEXT as "Drive", the result is exactly
a text run "See ", one hyperlink element targeting "https://x.test"
with display text "Drive", and a text run " here". -/
theorem C3_link_substitution (runs : List Run) (m : List (String × String))
    (hf : flatten runs = "See [LINK_DRIVE] here")
    (h1 : List.lookup "LINK_DRIVE" m = some "https://x.test")
    (h2 : List.lookup "LINK_DRIVE_TEXT" m = some "Drive") :
    replaceInParagraph runs m =
      ([PElem.run none "See ", PElem.hlink "https://x.test" "Drive",
        PElem.run none " here"], []) := by
  have hurl : lookupStr m "LINK_DRIVE" = "https://x.test" := by
    unfold lookupStr; rw [h1]; rfl
  have htext : lookupStr m "LINK_DRIVE_TEXT" = "Drive" := by
    unfold lookupStr; rw [h2]; rfl
  have hd : driveCond runs m :=
    ⟨by rw [hf]; decide, by rw [hurl]; decide⟩
  unfold replaceInParagraph
  rw [if_pos hd, hf, hurl, htext]
  rw [if_neg (by decide : ¬ ("Drive" : String) = "")]
  have hsp : pySplit "See [LINK_DRIVE] here" "[LINK_DRIVE]" = ["See ", " here"] := by decide
  rw [hsp, linkParts_two]
  have hs1 : substAll (nonLinkKeys m) "See " = "See " := substAll_no_open _ (by decide)
  have hs2 : substAll (nonLinkKeys m) " here" = " here" := substAll_no_open _ (by decide)
  rw [hs1, hs2]
  rw [if_neg (by decide : ¬ ("See " : String) = ""),
    if_neg (by decide : ¬ (" here" : String) = "")]
  rfl

theorem C3_link_substitution_w :
    replaceInParagraph [⟨some 1, "See [LINK_DRIVE] here"⟩]
        [("LINK_DRIVE", "https://x.test"), ("LINK_DRIVE_TEXT", "Drive")] =
      ([PElem.run none "See ", PElem.hlink "https://x.test" "Drive",
        PElem.run none " here"], []) :=
  C3_link_substitution _ _ (flatten_single _ _) (by decide) (by decide)

/-! Facts about the token scanner, towards claims C1 and C6. -/

theorem findGo_nil (f : Nat) : findGo f [] = [] := by cases f <;> rfl

theorem findGo_succ_cons (k : Nat) (c : Char) (rest : List Char) :
    findGo (k + 1) (c :: rest) =
      if c == '[' && isCloseHead (List.dropWhile isTok rest)
          && !(List.takeWhile isTok rest).isEmpty then
        List.takeWhile isTok rest :: findGo k (List.dropWhile isTok rest).tail
      else findGo k rest := rfl

theorem dwLenLe (p : Char → Bool) (l : List Char) :
    (List.dropWhile p l).length ≤ l.length := by
  induction l with
  | nil => exact le_refl _
  | cons x xs ih =>
    rw [List.dropWhile_cons]
    by_cases h : p x = true
    · rw [if_pos h]; exact le_trans ih (Nat.le_succ _)
    · rw [if_neg h]

theorem findGo_congr :
    ∀ f₁ : Nat, ∀ s : List Char, ∀ f₂ : Nat, s.length ≤ f₁ → s.length ≤ f₂ →
      findGo f₁ s = findGo f₂ s := by
  intro f₁
  induction f₁ with
  | zero =>
    intro s f₂ h1 _
    have hs : s = [] := List.eq_nil_of_length_eq_zero (Nat.le_zero.mp h1)
    subst hs
    rw [findGo_nil, findGo_nil]
  | succ k ih =>
    intro s f₂ h1 h2
    cases s with
    | nil => rw [findGo_nil, findGo_nil]
    | cons c rest =>
      cases f₂ with
      | zero => simp at h2
      | succ l =>
        rw [findGo_succ_cons, findGo_succ_cons]
        have hr : rest.length ≤ k := by simp at h1; omega
        have hr' : rest.length ≤ l := by simp at h2; omega
        have htl : (List.dropWhile isTok rest).tail.length ≤ rest.length := by
          have h1 := dwLenLe isTok rest
          have h2 : (List.dropWhile isTok rest).tail.length =
              (List.dropWhile isTok rest).length - 1 := List.length_tail _
          omega
        by_cases hc : (c == '[' && isCloseHead (List.dropWhile isTok rest)
            && !(List.takeWhile isTok rest).isEmpty) = true
        · rw [if_pos hc, if_pos hc, ih _ _ (le_trans htl hr) (le_trans htl hr')]
        · rw [if_neg hc, if_neg hc, ih _ _ hr hr']

theorem findTokensL_cons (c : Char) (rest : List Char) :
    findTokensL (c :: rest) =
      if c == '[' && isCloseHead (List.dropWhile isTok rest)
          && !(List.takeWhile isTok rest).isEmpty then
        List.takeWhile isTok rest :: findTokensL (List.dropWhile isTok rest).tail
      else findTokensL rest := by
  show findGo (rest.length + 1) (c :: rest) = _
  rw [findGo_succ_cons]
  have htl : (List.dropWhile isTok rest).tail.length ≤ rest.length := by
    have h1 := dwLenLe isTok rest
    have h2 : (List.dropWhile isTok rest).tail.length =
        (List.dropWhile isTok rest).length - 1 := List.length_tail _
    omega
  by_cases hc : (c == '[' && isCloseHead (List.dropWhile isTok rest)
      && !(List.takeWhile isTok rest).isEmpty) = true
  · rw [if_pos hc, if_pos hc]
    congr 1
    exact findGo_congr _ _ _ htl (le_refl _)
  · rw [if_neg hc, if_neg hc]
    rfl

theorem takeWhile_tok {N : List Char} (hN : ∀ c ∈ N, isTok c = true) (t : List Char) :
    List.takeWhile isTok (N ++ ']' :: t) = N := by
  induction N with
  | nil => rw [List.nil_append, List.takeWhile_cons, if_neg (by decide)]
  | cons x xs ih =>
    rw [List.cons_append, List.takeWhile_cons, if_pos (hN x (List.mem_cons_self _ _))]
    rw [ih (fun c hc => hN c (List.mem_cons_of_mem _ hc))]

theorem dropWhile_tok {N : List Char} (hN : ∀ c ∈ N, isTok c = true) (t : List Char) :
    List.dropWhile isTok (N ++ ']' :: t) = ']' :: t := by
  induction N with
  | nil => rw [List.nil_append, List.dropWhile_cons, if_neg (by decide)]
  | cons x xs ih =>
    rw [List.cons_append, List.dropWhile_cons, if_pos (hN x (List.mem_cons_self _ _))]
    exact ih (fun c hc => hN c (List.mem_cons_of_mem _ hc))

theorem isEmpty_false_of_ne_nil {α : Type} {l : List α} (h : l ≠ []) : l.isEmpty = false := by
  cases l with
  | nil => exact absurd rfl h
  | cons x xs => rfl

/-- Completeness of the token scanner: a string containing a
well-formed grammar token is never reported token-free. -/
theorem findTokensL_ne_nil {N : List Char} (hN1 : N ≠ []) (hN2 : ∀ c ∈ N, isTok c = true) :
    ∀ {s : List Char}, containsL (pattL N) s = true → findTokensL s ≠ [] := by
  intro s
  induction s with
  | nil =>
    intro h
    exact absurd h (by simp [containsL, pattL, List.isEmpty])
  | cons c rest ih =>
    intro h
    rcases Bool.or_eq_true _ _ |>.mp h with hl | hr
    · obtain ⟨t, ht⟩ := isPre_iff.mp hl
      have ht' : c :: rest = '[' :: (N ++ (']' :: t)) := by
        rw [ht]
        show pattL N ++ t = _
        rw [pattL, List.cons_append, List.append_assoc]
        rfl
      injection ht' with hc hrest
      subst hc
      subst hrest
      rw [findTokensL_cons,
        if_pos (by rw [takeWhile_tok hN2, dropWhile_tok hN2, isEmpty_false_of_ne_nil hN1]; rfl)]
      exact List.cons_ne_nil _ _
    · have hne := ih hr
      rw [findTokensL_cons]
      by_cases hc : (c == '[' && isCloseHead (List.dropWhile isTok rest)
          && !(List.takeWhile isTok rest).isEmpty) = true
      · rw [if_pos hc]; exact List.cons_ne_nil _ _
      · rw [if_neg hc]; exact hne

theorem flattenElems_map_run (runs : List Run) :
    flattenElems (runs.map fun r => PElem.run r.style r.text) = flatten runs := by
  induction runs with
  | nil => rfl
  | cons r rs ih =>
    show Run.text r ++ flattenElems (rs.map fun r => PElem.run r.style r.text) =
      Run.text r ++ flatten rs
    rw [ih]

/-- C1 amended: whenever neither link branch applies and no
spanning-placeholder warning is emitted, the flattened output text
contains no grammar token at all; in particular it contains no token
[K] of a plain key with non-empty value.  (As stated, with arbitrary
mapping values, the claim is refuted by the counterexample: the
fallback substitution can itself create such a token.) -/
theorem C1_no_token_after_plain (runs : List Run) (m : List (String × String)) (K : List Char)
    (hd : ¬ driveCond runs m) (hdl : ¬ downloadCond runs m)
    (hw : (replaceInParagraph runs m).2 = [])
    (hK1 : K ≠ []) (hK2 : ∀ c ∈ K, isTok c = true) :
    containsL (pattL K) (flattenElems (replaceInParagraph runs m).1).data = false := by
  unfold replaceInParagraph at hw ⊢
  rw [if_neg hd, if_neg hdl] at hw ⊢
  unfold plainPath at hw ⊢
  by_cases he : (pyFindTokens (flatten (plainRuns runs m))).isEmpty = true
  · rw [if_pos he]
    rw [flattenElems_map_run]
    cases hcon : containsL (pattL K) (flatten (plainRuns runs m)).data
    · rfl
    · exfalso
      apply findTokensL_ne_nil hK1 hK2 hcon
      have : pyFindTokens (flatten (plainRuns runs m)) = [] := by
        cases hpf : pyFindTokens (flatten (plainRuns runs m)) with
        | nil => rfl
        | cons x xs => rw [hpf] at he; exact absurd he (by simp)
      unfold pyFindTokens at this
      exact List.map_eq_nil_iff.mp this
  · rw [if_neg he] at hw
    exact absurd hw (by simp)

theorem C1_no_token_after_plain_w :
    containsL (pattL "CNPJ".data)
      (flattenElems (replaceInParagraph [⟨none, "[CNPJ] ok"⟩] [("CNPJ", "123")]).1).data
      = false :=
  C1_no_token_after_plain _ _ _ (driveCond_false rfl) (downloadCond_false rfl) rfl
    (by decide) (by decide)

theorem linkParts_single (nl : List (String × String)) (url disp p : String) :
    linkParts nl url disp [p] =
      if substAll nl p = "" then ([] : List PElem)
      else [PElem.run none (substAll nl p)] := rfl

theorem linkParts_cons₂ (nl : List (String × String)) (url disp p q : String)
    (rest : List String) :
    linkParts nl url disp (p :: q :: rest) =
      (if substAll nl p = "" then ([] : List PElem)
       else [PElem.run none (substAll nl p)]) ++
        (PElem.hlink url disp :: linkParts nl url disp (q :: rest)) := rfl

theorem hlink_mem_linkParts {nl : List (String × String)} {url disp u d : String} :
    ∀ {parts : List String},
      PElem.hlink u d ∈ linkParts nl url disp parts → u = url ∧ d = disp := by
  intro parts
  induction parts with
  | nil => intro h; exact absurd h (List.not_mem_nil _)
  | cons p rest ih =>
    cases rest with
    | nil =>
      intro h
      rw [linkParts_single] at h
      by_cases hc : substAll nl p = ""
      · rw [if_pos hc] at h
        exact absurd h (List.not_mem_nil _)
      · rw [if_neg hc] at h
        simp at h
    | cons q rest' =>
      intro h
      rw [linkParts_cons₂] at h
      rcases List.mem_append.mp h with h1 | h2
      · by_cases hc : substAll nl p = ""
        · rw [if_pos hc] at h1
          exact absurd h1 (List.not_mem_nil _)
        · rw [if_neg hc] at h1
          simp at h1
      · rcases List.mem_cons.mp h2 with h3 | h4
        · injection h3 with e1 e2
          exact ⟨e1, e2⟩
        · exact ih h4

theorem hlink_not_mem_plainPath {runs : List Run} {m : List (String × String)} {u d : String} :
    PElem.hlink u d ∉ (plainPath runs m).1 := by
  unfold plainPath
  by_cases he : (pyFindTokens (flatten (plainRuns runs m))).isEmpty = true
  · rw [if_pos he]
    intro h
    simp at h
  · rw [if_neg he]
    intro h
    simp at h

/-- C4 amended: every hyperlink inserted by replace_in_paragraph uses,
for LINK_DRIVE, the LINK_DRIVE_TEXT field when non-empty and the
fallback label "Link Drive" otherwise; for LINK_PARA_DOWNLOAD the
display text is always the fixed label "Link para download",
irrespective of the LINK_PARA_DOWNLOAD_TEXT field (the original claim
fails for that token, see the counterexample). -/
theorem C4_hyperlink_display (runs : List Run) (m : List (String × String)) (u d : String)
    (h : PElem.hlink u d ∈ (replaceInParagraph runs m).1) :
    (driveCond runs m ∧ u = lookupStr m "LINK_DRIVE" ∧
      d = (if lookupStr m "LINK_DRIVE_TEXT" = "" then "Link Drive"
           else lookupStr m "LINK_DRIVE_TEXT")) ∨
    (¬ driveCond runs m ∧ downloadCond runs m ∧
      u = lookupStr m "LINK_PARA_DOWNLOAD" ∧ d = "Link para download") := by
  unfold replaceInParagraph at h
  by_cases h1 : driveCond runs m
  · rw [if_pos h1] at h
    obtain ⟨hu, hd⟩ := hlink_mem_linkParts h
    exact Or.inl ⟨h1, hu, hd⟩
  · rw [if_neg h1] at h
    by_cases h2 : downloadCond runs m
    · rw [if_pos h2] at h
      obtain ⟨hu, hd⟩ := hlink_mem_linkParts h
      exact Or.inr ⟨h1, h2, hu, hd⟩
    · rw [if_neg h2] at h
      exact absurd h hlink_not_mem_plainPath

theorem C4_hyperlink_display_w :
    (driveCond [⟨none, "[LINK_PARA_DOWNLOAD]"⟩]
        [("LINK_PARA_DOWNLOAD", "https://u"), ("LINK_PARA_DOWNLOAD_TEXT", "Custom")] ∧
      ("https://u" : String) = lookupStr
        [("LINK_PARA_DOWNLOAD", "https://u"), ("LINK_PARA_DOWNLOAD_TEXT", "Custom")]
        "LINK_DRIVE" ∧
      ("Link para download" : String) =
        (if lookupStr [("LINK_PARA_DOWNLOAD", "https://u"),
            ("LINK_PARA_DOWNLOAD_TEXT", "Custom")] "LINK_DRIVE_TEXT" = "" then "Link Drive"
         else lookupStr [("LINK_PARA_DOWNLOAD", "https://u"),
            ("LINK_PARA_DOWNLOAD_TEXT", "Custom")] "LINK_DRIVE_TEXT")) ∨
    (¬ driveCond [⟨none, "[LINK_PARA_DOWNLOAD]"⟩]
        [("LINK_PARA_DOWNLOAD", "https://u"), ("LINK_PARA_DOWNLOAD_TEXT", "Custom")] ∧
      downloadCond [⟨none, "[LINK_PARA_DOWNLOAD]"⟩]
        [("LINK_PARA_DOWNLOAD", "https://u"), ("LINK_PARA_DOWNLOAD_TEXT", "Custom")] ∧
      ("https://u" : String) = lookupStr
        [("LINK_PARA_DOWNLOAD", "https://u"), ("LINK_PARA_DOWNLOAD_TEXT", "Custom")]
        "LINK_PARA_DOWNLOAD" ∧
      ("Link para download" : String) = "Link para download") :=
  C4_hyperlink_display _ _ "https://u" "Link para download" (by decide)

/-! Combinatorics of bracketed tokens, towards claim C6: a grammar
token cannot overlap a different grammar token, nor start inside a
bracket-free zone, so the substitution engine preserves occurrences
of tokens it does not replace. -/

theorem tok_ne_open {c : Char} (h : isTok c = true) : c ≠ '[' := by
  intro hc
  subst hc
  exact absurd h (by decide)

theorem tok_ne_close {c : Char} (h : isTok c = true) : c ≠ ']' := by
  intro hc
  subst hc
  exact absurd h (by decide)

theorem bool_false_of_not {b : Bool} (h : ¬ b = true) : b = false := by
  cases b
  · rfl
  · exact absurd rfl h

theorem containsL_cons_of {pat t : List Char} (c : Char) (h : containsL pat t = true) :
    containsL pat (c :: t) = true := by
  show (isPre pat (c :: t) || containsL pat t) = true
  rw [h, Bool.or_true]

theorem containsL_nil_patt (N : List Char) : containsL (pattL N) [] = false := rfl

theorem patt_ne_nil (K : List Char) : pattL K ≠ [] := List.cons_ne_nil _ _

theorem str_data_inj {s t : String} (h : s.data = t.data) : s = t := by
  cases s
  cases t
  exact congrArg String.mk h

theorem lookup_mem : ∀ {l : List (String × String)} {k v : String},
    List.lookup k l = some v → (k, v) ∈ l := by
  intro l
  induction l with
  | nil => intro k v h; exact absurd h (by simp [List.lookup])
  | cons kv l ih =>
    intro k v h
    by_cases hk : (k == kv.1) = true
    · have h' : some kv.2 = some v := by
        rw [List.lookup, hk] at h
        exact h
      injection h' with hv
      have hkk : k = kv.1 := eq_of_beq hk
      rw [hkk, ← hv]
      exact List.mem_cons_self _ _
    · have h' : List.lookup k l = some v := by
        rw [List.lookup, bool_false_of_not hk] at h
        exact h
      exact List.mem_cons_of_mem _ (ih h')

/-- Two grammar names followed by a closing bracket and equal from the
start are the same name. -/
theorem tok_head_eq {K N : List Char} (hK : ∀ c ∈ K, isTok c = true)
    (hN : ∀ c ∈ N, isTok c = true) :
    ∀ {b d : List Char}, K ++ ']' :: b = N ++ ']' :: d → K = N := by
  induction K generalizing N with
  | nil =>
    intro b d h
    cases N with
    | nil => rfl
    | cons n N' =>
      rw [List.nil_append, List.cons_append] at h
      injection h with h1 _
      exact absurd (hN n (List.mem_cons_self _ _)) (by rw [← h1]; decide)
  | cons k K' ih =>
    intro b d h
    cases N with
    | nil =>
      rw [List.nil_append, List.cons_append] at h
      injection h with h1 _
      exact absurd (hK k (List.mem_cons_self _ _)) (by rw [h1]; decide)
    | cons n N' =>
      rw [List.cons_append, List.cons_append] at h
      injection h with h1 h2
      rw [h1, ih (fun c hc => hK c (List.mem_cons_of_mem _ hc))
        (fun c hc => hN c (List.mem_cons_of_mem _ hc)) h2]

/-- A zone with no opening bracket lies entirely before any occurrence
of a string starting with the opening bracket. -/
theorem seg_split {w : List Char} (hw : ∀ c ∈ w, c ≠ '[') :
    ∀ {a rest z : List Char}, w ++ rest = a ++ '[' :: z → ∃ a', a = w ++ a' := by
  induction w with
  | nil => exact fun {a} _ _ _ => ⟨a, rfl⟩
  | cons x w' ih =>
    intro a rest z h
    cases a with
    | nil =>
      rw [List.cons_append, List.nil_append] at h
      injection h with h1 _
      exact absurd h1 (hw x (List.mem_cons_self _ _))
    | cons y a' =>
      rw [List.cons_append, List.cons_append] at h
      injection h with h1 h2
      obtain ⟨a'', ha⟩ := ih (fun c hc => hw c (List.mem_cons_of_mem _ hc)) h2
      exact ⟨a'', by rw [← h1, ha, List.cons_append]⟩

/-- A token occurrence in a string starting with a (different or
equal) token either starts at position zero or after that whole
leading token. -/
theorem patt_overlap {K N : List Char} (hK : ∀ c ∈ K, isTok c = true) :
    ∀ {a b dd : List Char}, pattL K ++ dd = a ++ pattL N ++ b →
      a = [] ∨ ∃ a'', a = pattL K ++ a'' := by
  intro a b dd h
  cases a with
  | nil => exact Or.inl rfl
  | cons c a' =>
    right
    have h' : '[' :: ((K ++ [']']) ++ dd) = c :: ((a' ++ pattL N) ++ b) := h
    injection h' with h1 h2
    have h3 : (K ++ [']']) ++ dd = a' ++ '[' :: ((N ++ [']']) ++ b) := by
      rw [h2, List.append_assoc]
      rfl
    have hw : ∀ c ∈ K ++ [']'], c ≠ '[' := by
      intro c hc
      rcases List.mem_append.mp hc with hc1 | hc2
      · exact tok_ne_open (hK c hc1)
      · rw [List.mem_singleton.mp hc2]; decide
    obtain ⟨a'', ha⟩ := seg_split hw h3
    refine ⟨a'', ?_⟩
    rw [← h1, ha]
    rfl

/-- Replacement of a bracket-opening pattern walks through a zone with
no opening bracket unchanged. -/
theorem replL_skip {p' rep : List Char} :
    ∀ {u : List Char}, (∀ c ∈ u, c ≠ '[') → ∀ t : List Char,
      replL ('[' :: p') rep (u ++ t) = u ++ replL ('[' :: p') rep t := by
  intro u
  induction u with
  | nil => exact fun _ _ => rfl
  | cons x u' ih =>
    intro hu t
    rw [List.cons_append]
    have hpre : isPre ('[' :: p') (x :: (u' ++ t)) = false := by
      show (('[' == x) && isPre p' (u' ++ t)) = false
      have : ('[' == x) = false := by
        rw [beq_eq_false_iff_ne]
        exact fun hh => hu x (List.mem_cons_self _ _) hh.symm
      rw [this, Bool.false_and]
    rw [replL_neg hpre, ih (fun c hc => hu c (List.mem_cons_of_mem _ hc)) t, List.cons_append]

theorem substAllL_nil_str (nl : List (List Char × List Char)) : substAllL nl [] = [] := by
  induction nl with
  | nil => rfl
  | cons kv nl ih =>
    show substAllL nl (replL (pattL kv.1) kv.2 []) = []
    exact ih

theorem substAllL_cons (kv : List Char × List Char) (nl : List (List Char × List Char))
    (s : List Char) : substAllL (kv :: nl) s = substAllL nl (replL (pattL kv.1) kv.2 s) := rfl

/-- Whole-mapping substitution walks through a zone with no opening
bracket unchanged. -/
theorem substAllL_skip {nl : List (List Char × List Char)} {u : List Char}
    (hu : ∀ c ∈ u, c ≠ '[') (t : List Char) :
    substAllL nl (u ++ t) = u ++ substAllL nl t := by
  induction nl generalizing t with
  | nil => rfl
  | cons kv nl ih =>
    rw [substAllL_cons, substAllL_cons]
    rw [show replL (pattL kv.1) kv.2 (u ++ t) = u ++ replL (pattL kv.1) kv.2 t from
      replL_skip hu t]
    exact ih _

/-- A string made only of token characters is untouched by the
whole-mapping substitution. -/
theorem substAllL_tokfix {nl : List (List Char × List Char)} {w : List Char}
    (hw : ∀ c ∈ w, isTok c = true) : substAllL nl w = w := by
  induction nl with
  | nil => rfl
  | cons kv nl ih =>
    rw [substAllL_cons]
    rw [replL_no_occ (open_mem_patt kv.1) (fun hmem => by
      have := hw '[' hmem
      exact absurd this (by decide))]
    exact ih

theorem replL_keep_base {K v : List Char} {w : List Char} (hw : ']' ∉ w) :
    replL (pattL K) v ('[' :: w) = '[' :: w := by
  have hpre : isPre (pattL K) ('[' :: w) = false := by
    show (('[' == '[') && isPre (K ++ [']']) w) = false
    rw [isPre_false_of_mem (List.mem_append_right K (List.mem_singleton.mpr rfl)) hw]
    rw [Bool.and_false]
  rw [replL_neg hpre, replL_no_occ (close_mem_patt K) hw]

theorem replL_keep_suffix_aux {K v : List Char} (hK : ∀ c ∈ K, isTok c = true)
    {w : List Char} (hw : ']' ∉ w) :
    ∀ n : Nat, ∀ t : List Char, t.length ≤ n →
      replL (pattL K) v (t ++ '[' :: w) = replL (pattL K) v t ++ '[' :: w := by
  intro n
  induction n with
  | zero =>
    intro t ht
    have hnil : t = [] := List.eq_nil_of_length_eq_zero (Nat.le_zero.mp ht)
    subst hnil
    rw [List.nil_append]
    show replL (pattL K) v ('[' :: w) = [] ++ '[' :: w
    rw [replL_keep_base hw, List.nil_append]
  | succ k ih =>
    intro t ht
    cases t with
    | nil =>
      rw [List.nil_append]
      show replL (pattL K) v ('[' :: w) = [] ++ '[' :: w
      rw [replL_keep_base hw, List.nil_append]
    | cons c t' =>
      by_cases hp : isPre (pattL K) ((c :: t') ++ '[' :: w) = true
      · obtain ⟨d, hd⟩ := isPre_iff.mp hp
        rcases List.append_eq_append_iff.mp hd with ⟨x, hx1, hx2⟩ | ⟨x, hx1, hx2⟩
        · cases x with
          | nil =>
            rw [List.append_nil] at hx1
            rw [replL_pos (patt_ne_nil K) hp, ← hx1, List.drop_left,
              replL_keep_base hw, replL_self _ _ (patt_ne_nil K)]
          | cons x0 x1 =>
            exfalso
            have hx0 : x0 = '[' := by
              rw [List.cons_append] at hx2
              injection hx2 with h1 _
              exact h1.symm
            subst hx0
            have hsh : '[' :: (K ++ [']']) = c :: (t' ++ '[' :: x1) := hx1
            injection hsh with h1 h2
            have hmem : '[' ∈ K ++ [']'] := by
              rw [h2]
              exact List.mem_append_right _ (List.mem_cons_self _ _)
            rcases List.mem_append.mp hmem with hm | hm
            · exact tok_ne_open (hK _ hm) rfl
            · rw [List.mem_singleton] at hm
              exact absurd hm (by decide)
        · have hlen : x.length ≤ k := by
            have := congrArg List.length hx1
            simp [pattL] at this
            simp at ht
            omega
          rw [hx1, List.append_assoc]
          rw [replL_pos (patt_ne_nil K) (isPre_append_self _ _), List.drop_left]
          rw [replL_pos (patt_ne_nil K) (isPre_append_self _ _), List.drop_left]
          rw [ih x hlen, List.append_assoc]
      · have hp₀ : isPre (pattL K) (c :: (t' ++ '[' :: w)) = false := by
          have : isPre (pattL K) ((c :: t') ++ '[' :: w) = false := bool_false_of_not hp
          rw [List.cons_append] at this
          exact this
        have hp' : isPre (pattL K) (c :: t') = false := by
          cases hval : isPre (pattL K) (c :: t')
          · rfl
          · exact absurd (isPre_append_ext ('[' :: w) hval) hp
        rw [List.cons_append, replL_neg hp₀]
        have hlen : t'.length ≤ k := by simp at ht; omega
        rw [ih t' hlen, replL_neg hp', List.cons_append]

theorem replL_keep_suffix {K v : List Char} (hK : ∀ c ∈ K, isTok c = true)
    {w : List Char} (hw : ']' ∉ w) (t : List Char) :
    replL (pattL K) v (t ++ '[' :: w) = replL (pattL K) v t ++ '[' :: w :=
  replL_keep_suffix_aux hK hw t.length t (le_refl _)

theorem replL_keep_occ_aux {K N v : List Char} (hK : ∀ c ∈ K, isTok c = true)
    (hN : ∀ c ∈ N, isTok c = true) (hKN : K ≠ N) :
    ∀ n : Nat, ∀ s : List Char, s.length ≤ n → containsL (pattL N) s = true →
      containsL (pattL N) (replL (pattL K) v s) = true := by
  intro n
  induction n with
  | zero =>
    intro s hs h
    have hnil : s = [] := List.eq_nil_of_length_eq_zero (Nat.le_zero.mp hs)
    subst hnil
    exact absurd h (by rw [containsL_nil_patt]; simp)
  | succ k ih =>
    intro s hs h
    by_cases hp : isPre (pattL K) s = true
    · obtain ⟨dd, hdd⟩ := isPre_iff.mp hp
      obtain ⟨a, b, hab⟩ := containsL_iff.mp h
      rw [hdd] at hab
      rcases patt_overlap hK hab with ha | ⟨a'', ha⟩
      · exfalso
        subst ha
        rw [List.nil_append] at hab
        have hsh : '[' :: ((K ++ [']']) ++ dd) = '[' :: ((N ++ [']']) ++ b) := hab
        injection hsh with _ h2
        rw [List.append_assoc, List.append_assoc] at h2
        exact hKN (tok_head_eq hK hN h2)
      · subst ha
        have hdd2 : dd = a'' ++ pattL N ++ b := by
          rw [List.append_assoc, List.append_assoc] at hab
          rw [List.append_cancel_left hab, List.append_assoc]
        rw [replL_pos (patt_ne_nil K) hp, hdd, List.drop_left]
        have hlen : dd.length ≤ k := by
          have := congrArg List.length hdd
          simp [pattL] at this
          omega
        exact containsL_append_right _
          (ih dd hlen (containsL_iff.mpr ⟨a'', b, hdd2⟩))
    · cases s with
      | nil => exact absurd h (by rw [containsL_nil_patt]; simp)
      | cons c rest =>
        obtain ⟨a, b, hab⟩ := containsL_iff.mp h
        have hp' : isPre (pattL K) (c :: rest) = false := bool_false_of_not hp
        cases a with
        | nil =>
          rw [List.nil_append] at hab
          have hsh : c :: rest = '[' :: ((N ++ [']']) ++ b) := hab
          injection hsh with hc hrest
          subst hc
          subst hrest
          rw [replL_neg hp']
          have hzone : ∀ x ∈ N ++ [']'], x ≠ '[' := by
            intro x hx
            rcases List.mem_append.mp hx with hm | hm
            · exact tok_ne_open (hN _ hm)
            · rw [List.mem_singleton] at hm
              rw [hm]
              decide
          rw [show replL (pattL K) v ((N ++ [']']) ++ b) =
              (N ++ [']']) ++ replL (pattL K) v b from replL_skip hzone b]
          refine containsL_iff.mpr ⟨[], replL (pattL K) v b, ?_⟩
          rw [List.nil_append]
          rfl
        | cons c' a' =>
          have hsh : c :: rest = c' :: ((a' ++ pattL N) ++ b) := hab
          injection hsh with hc hrest
          rw [replL_neg hp']
          have hlen : rest.length ≤ k := by simp at hs; omega
          refine containsL_cons_of c ?_
          exact ih rest hlen (containsL_iff.mpr ⟨a', b, hrest⟩)

theorem replL_keep_occ {K N v : List Char} (hK : ∀ c ∈ K, isTok c = true)
    (hN : ∀ c ∈ N, isTok c = true) (hKN : K ≠ N) {s : List Char}
    (h : containsL (pattL N) s = true) :
    containsL (pattL N) (replL (pattL K) v s) = true :=
  replL_keep_occ_aux hK hN hKN s.length s (le_refl _) h

theorem substAllL_keep_suffix {nl : List (List Char × List Char)}
    (hkeys : ∀ kv ∈ nl, ∀ c ∈ kv.1, isTok c = true) {w : List Char} (hw : ']' ∉ w) :
    ∀ t : List Char, substAllL nl (t ++ '[' :: w) = substAllL nl t ++ '[' :: w := by
  induction nl with
  | nil => exact fun _ => rfl
  | cons kv nl ih =>
    intro t
    rw [substAllL_cons, substAllL_cons,
      replL_keep_suffix (hkeys kv (List.mem_cons_self _ _)) hw t]
    exact ih (fun kv' hkv' c hc => hkeys kv' (List.mem_cons_of_mem _ hkv') c hc) _

theorem substAllL_keep_occ {N : List Char} (hN : ∀ c ∈ N, isTok c = true)
    {nl : List (List Char × List Char)}
    (hkeys : ∀ kv ∈ nl, (∀ c ∈ kv.1, isTok c = true) ∧ kv.1 ≠ N) :
    ∀ {s : List Char}, containsL (pattL N) s = true →
      containsL (pattL N) (substAllL nl s) = true := by
  induction nl with
  | nil => exact fun h => h
  | cons kv nl ih =>
    intro s h
    rw [substAllL_cons]
    exact ih (fun kv' hkv' => hkeys kv' (List.mem_cons_of_mem _ hkv'))
      (replL_keep_occ (hkeys kv (List.mem_cons_self _ _)).1 hN
        (hkeys kv (List.mem_cons_self _ _)).2 h)

theorem close_zone {N : List Char} (hN : ∀ c ∈ N, isTok c = true) :
    ∀ x ∈ N ++ [']'], x ≠ '[' := by
  intro x hx
  rcases List.mem_append.mp hx with hm | hm
  · exact tok_ne_open (hN _ hm)
  · rw [List.mem_singleton] at hm
    rw [hm]
    decide

theorem splitGo_nil (pat : List Char) (f : Nat) : splitGo pat f [] = [[]] := by
  cases f <;> rfl

theorem splitGo_succ_cons (pat : List Char) (k : Nat) (c : Char) (rest : List Char) :
    splitGo pat (k + 1) (c :: rest) =
      if !pat.isEmpty && isPre pat (c :: rest) then
        [] :: splitGo pat k (List.drop (pat.length - 1) rest)
      else
        match splitGo pat k rest with
        | [] => [[c]]
        | seg :: segs => (c :: seg) :: segs := rfl

theorem splitGo_ne_nil (pat : List Char) : ∀ f : Nat, ∀ s : List Char, splitGo pat f s ≠ [] := by
  intro f
  induction f with
  | zero =>
    intro s
    cases s with
    | nil => exact List.cons_ne_nil _ _
    | cons c rest => exact List.cons_ne_nil _ _
  | succ k ih =>
    intro s
    cases s with
    | nil => rw [splitGo_nil]; exact List.cons_ne_nil _ _
    | cons c rest =>
      rw [splitGo_succ_cons]
      by_cases hc : (!pat.isEmpty && isPre pat (c :: rest)) = true
      · rw [if_pos hc]; exact List.cons_ne_nil _ _
      · rw [if_neg hc]
        cases hsg : splitGo pat k rest with
        | nil => exact absurd hsg (ih rest)
        | cons seg segs => exact List.cons_ne_nil _ _

theorem splitGo_congr (pat : List Char) :
    ∀ f₁ : Nat, ∀ s : List Char, ∀ f₂ : Nat, s.length ≤ f₁ → s.length ≤ f₂ →
      splitGo pat f₁ s = splitGo pat f₂ s := by
  intro f₁
  induction f₁ with
  | zero =>
    intro s f₂ h1 _
    have hs : s = [] := List.eq_nil_of_length_eq_zero (Nat.le_zero.mp h1)
    subst hs
    rw [splitGo_nil, splitGo_nil]
  | succ k ih =>
    intro s f₂ h1 h2
    cases s with
    | nil => rw [splitGo_nil, splitGo_nil]
    | cons c rest =>
      cases f₂ with
      | zero => simp at h2
      | succ l =>
        rw [splitGo_succ_cons, splitGo_succ_cons]
        have hr : rest.length ≤ k := by simp at h1; omega
        have hr' : rest.length ≤ l := by simp at h2; omega
        by_cases hc : (!pat.isEmpty && isPre pat (c :: rest)) = true
        · rw [if_pos hc, if_pos hc]
          have hd : (List.drop (pat.length - 1) rest).length ≤ k := by
            rw [List.length_drop]; omega
          have hd' : (List.drop (pat.length - 1) rest).length ≤ l := by
            rw [List.length_drop]; omega
          rw [ih _ _ hd hd']
        · rw [if_neg hc, if_neg hc, ih _ _ hr hr']

theorem splitL_pos {pat : List Char} (hp : pat ≠ []) {s : List Char}
    (h : isPre pat s = true) :
    splitOnL pat s = [] :: splitOnL pat (s.drop pat.length) := by
  cases s with
  | nil =>
    cases pat with
    | nil => exact absurd rfl hp
    | cons x xs => simp [isPre] at h
  | cons c rest =>
    show splitGo pat (rest.length + 1) (c :: rest) = _
    rw [splitGo_succ_cons]
    have hcond : (!pat.isEmpty && isPre pat (c :: rest)) = true := by
      rw [h, Bool.and_true]
      cases pat with
      | nil => exact absurd rfl hp
      | cons x xs => rfl
    rw [if_pos hcond]
    congr 1
    cases pat with
    | nil => exact absurd rfl hp
    | cons x xs =>
      show splitGo (x :: xs) rest.length (List.drop ((x :: xs).length - 1) rest) =
          splitOnL (x :: xs) (List.drop xs.length rest)
      have hlen : (x :: xs).length - 1 = xs.length := by simp
      rw [hlen]
      exact splitGo_congr _ _ _ _ (by rw [List.length_drop]; omega) (le_refl _)

theorem splitL_neg {pat : List Char} {c : Char} {rest : List Char}
    (h : isPre pat (c :: rest) = false) {seg : List Char} {segs : List (List Char)}
    (hsg : splitOnL pat rest = seg :: segs) :
    splitOnL pat (c :: rest) = (c :: seg) :: segs := by
  show splitGo pat (rest.length + 1) (c :: rest) = _
  rw [splitGo_succ_cons, h, Bool.and_false, if_neg (by simp)]
  rw [show splitGo pat rest.length rest = seg :: segs from hsg]

theorem splitL_zone (p' : List Char) {w : List Char} (hw : ∀ c ∈ w, c ≠ '[') :
    ∀ t : List Char, ∃ seg segs z, splitOnL ('[' :: p') (w ++ t) = seg :: segs ∧
      seg = w ++ z := by
  induction w with
  | nil =>
    intro t
    cases hs : splitOnL ('[' :: p') t with
    | nil => exact absurd hs (splitGo_ne_nil _ _ _)
    | cons seg segs =>
      exact ⟨seg, segs, seg, by rw [List.nil_append]; exact hs, (List.nil_append seg).symm⟩
  | cons x w' ih =>
    intro t
    obtain ⟨seg, segs, z, hsp, hseg⟩ := ih (fun c hc => hw c (List.mem_cons_of_mem _ hc)) t
    have hpre : isPre ('[' :: p') (x :: (w' ++ t)) = false := by
      show (('[' == x) && isPre p' (w' ++ t)) = false
      rw [show ('[' == x) = false from by
        rw [beq_eq_false_iff_ne]
        exact fun hh => hw x (List.mem_cons_self _ _) hh.symm, Bool.false_and]
    refine ⟨x :: seg, segs, z, ?_, ?_⟩
    · rw [List.cons_append]
      exact splitL_neg hpre hsp
    · rw [hseg, List.cons_append]

theorem splitL_keep_occ_aux {K N : List Char} (hK : ∀ c ∈ K, isTok c = true)
    (hN : ∀ c ∈ N, isTok c = true) (hKN : K ≠ N) :
    ∀ n : Nat, ∀ s : List Char, s.length ≤ n → containsL (pattL N) s = true →
      ∃ part ∈ splitOnL (pattL K) s, containsL (pattL N) part = true := by
  intro n
  induction n with
  | zero =>
    intro s hs h
    have hnil : s = [] := List.eq_nil_of_length_eq_zero (Nat.le_zero.mp hs)
    subst hnil
    exact absurd h (by rw [containsL_nil_patt]; simp)
  | succ k ih =>
    intro s hs h
    by_cases hp : isPre (pattL K) s = true
    · obtain ⟨dd, hdd⟩ := isPre_iff.mp hp
      obtain ⟨a, b, hab⟩ := containsL_iff.mp h
      rw [hdd] at hab
      rcases patt_overlap hK hab with ha | ⟨a'', ha⟩
      · exfalso
        subst ha
        rw [List.nil_append] at hab
        have hsh : '[' :: ((K ++ [']']) ++ dd) = '[' :: ((N ++ [']']) ++ b) := hab
        injection hsh with _ h2
        rw [List.append_assoc, List.append_assoc] at h2
        exact hKN (tok_head_eq hK hN h2)
      · subst ha
        have hdd2 : dd = a'' ++ pattL N ++ b := by
          rw [List.append_assoc, List.append_assoc] at hab
          rw [List.append_cancel_left hab, List.append_assoc]
        rw [hdd, splitL_pos (patt_ne_nil K) (isPre_append_self _ _), List.drop_left]
        have hlen : dd.length ≤ k := by
          have := congrArg List.length hdd
          simp [pattL] at this
          omega
        obtain ⟨part, hmem, hcont⟩ := ih dd hlen (containsL_iff.mpr ⟨a'', b, hdd2⟩)
        exact ⟨part, List.mem_cons_of_mem _ hmem, hcont⟩
    · cases s with
      | nil => exact absurd h (by rw [containsL_nil_patt]; simp)
      | cons c rest =>
        have hp' : isPre (pattL K) (c :: rest) = false := bool_false_of_not hp
        cases hsg : splitOnL (pattL K) rest with
        | nil => exact absurd hsg (splitGo_ne_nil _ _ _)
        | cons seg segs =>
          have hsplit := splitL_neg hp' hsg
          obtain ⟨a, b, hab⟩ := containsL_iff.mp h
          cases a with
          | nil =>
            rw [List.nil_append] at hab
            have hsh : c :: rest = '[' :: ((N ++ [']']) ++ b) := hab
            injection hsh with hc hrest
            subst hc
            subst hrest
            obtain ⟨seg', segs', z, hsp', hseg'⟩ :=
              splitL_zone (K ++ [']']) (close_zone hN) b
            have hsp'' : splitOnL (pattL K) (N ++ [']'] ++ b) = seg' :: segs' := hsp'
            rw [hsg] at hsp''
            injection hsp'' with e1 e2
            refine ⟨'[' :: seg, by rw [hsplit]; exact List.mem_cons_self _ _, ?_⟩
            rw [e1, hseg']
            refine containsL_iff.mpr ⟨[], z, ?_⟩
            rw [List.nil_append]
            rfl
          | cons c' a' =>
            have hsh : c :: rest = c' :: ((a' ++ pattL N) ++ b) := hab
            injection hsh with hc hrest
            have hlen : rest.length ≤ k := by simp at hs; omega
            obtain ⟨part, hmem, hcont⟩ := ih rest hlen (containsL_iff.mpr ⟨a', b, hrest⟩)
            rw [hsg] at hmem
            rcases List.mem_cons.mp hmem with hpe | hpm
            · refine ⟨c :: seg, by rw [hsplit]; exact List.mem_cons_self _ _, ?_⟩
              rw [hpe] at hcont
              exact containsL_cons_of c hcont
            · exact ⟨part, by rw [hsplit]; exact List.mem_cons_of_mem _ hpm, hcont⟩

theorem splitL_keep_occ {K N : List Char} (hK : ∀ c ∈ K, isTok c = true)
    (hN : ∀ c ∈ N, isTok c = true) (hKN : K ≠ N) {s : List Char}
    (h : containsL (pattL N) s = true) :
    ∃ part ∈ splitOnL (pattL K) s, containsL (pattL N) part = true :=
  splitL_keep_occ_aux hK hN hKN s.length s (le_refl _) h

theorem containsL_joinL_of_mem {q : List Char} {f : List Char → List Char} :
    ∀ {parts : List (List Char)} {x : List Char}, x ∈ parts →
      containsL q (f x) = true → containsL q (joinL (parts.map f)) = true := by
  intro parts
  induction parts with
  | nil => intro x hx _; exact absurd hx (List.not_mem_nil _)
  | cons y ts ih =>
    intro x hx hc
    rcases List.mem_cons.mp hx with he | hm
    · subst he
      show containsL q (f x ++ joinL (ts.map f)) = true
      exact containsL_append_left _ hc
    · show containsL q (f y ++ joinL (ts.map f)) = true
      exact containsL_append_right _ (ih hm hc)

theorem substAllL_close_unit {nl : List (List Char × List Char)} {u : List Char}
    (hu : ∀ c ∈ u, isTok c = true) : substAllL nl (u ++ [']']) = u ++ [']'] := by
  have h0 := @substAllL_skip nl (u ++ [']']) (close_zone hu) []
  rw [List.append_nil, substAllL_nil_str, List.append_nil] at h0
  exact h0

/-- A flattened list of pieces that begins with a token name and its
closing bracket still does so after every piece is substituted. -/
theorem joinL_keep_close_pre (nl : List (List Char × List Char)) :
    ∀ ts : List (List Char), ∀ u b : List Char, (∀ c ∈ u, isTok c = true) →
      joinL ts = (u ++ [']']) ++ b →
      ∃ b', joinL (ts.map (substAllL nl)) = (u ++ [']']) ++ b' := by
  intro ts
  induction ts with
  | nil =>
    intro u b _ h
    exfalso
    have := congrArg List.length h
    simp [joinL] at this
    omega
  | cons y ts' ih =>
    intro u b hu h
    have h' : y ++ joinL ts' = (u ++ [']']) ++ b := h
    rcases List.append_eq_append_iff.mp h' with ⟨w, hw1, hw2⟩ | ⟨w, hw1, hw2⟩
    · cases w with
      | nil =>
        rw [List.append_nil] at hw1
        refine ⟨joinL (ts'.map (substAllL nl)), ?_⟩
        show substAllL nl y ++ joinL (ts'.map (substAllL nl)) = _
        rw [← hw1, substAllL_close_unit hu]
      | cons w0 w1 =>
        rcases List.append_eq_append_iff.mp hw1 with ⟨z, hz1, hz2⟩ | ⟨z, hz1, hz2⟩
        · cases z with
          | cons z0 z1 =>
            exfalso
            have := congrArg List.length hz2
            simp at this
          | nil =>
            rw [List.append_nil] at hz1
            rw [List.nil_append] at hz2
            injection hz2 with e0 e1
            have hts : joinL ts' = ([] ++ [']']) ++ b := by
              rw [hw2, ← e0, ← e1]
              rfl
            obtain ⟨b', hb'⟩ := ih [] b (fun c hc => absurd hc (List.not_mem_nil _)) hts
            refine ⟨b', ?_⟩
            show substAllL nl y ++ joinL (ts'.map (substAllL nl)) = _
            rw [hz1, substAllL_tokfix hu, hb', List.nil_append, ← List.append_assoc]
        · have hy : ∀ c ∈ y, isTok c = true := fun c hc =>
            hu c (by rw [hz1]; exact List.mem_append_left _ hc)
          have hz : ∀ c ∈ z, isTok c = true := fun c hc =>
            hu c (by rw [hz1]; exact List.mem_append_right _ hc)
          have hts : joinL ts' = (z ++ [']']) ++ b := by
            rw [hw2, hz2]
          obtain ⟨b', hb'⟩ := ih z b hz hts
          refine ⟨b', ?_⟩
          show substAllL nl y ++ joinL (ts'.map (substAllL nl)) = _
          rw [substAllL_tokfix hy, hb', hz1, ← List.append_assoc, ← List.append_assoc]
    · refine ⟨substAllL nl w ++ joinL (ts'.map (substAllL nl)), ?_⟩
      show substAllL nl y ++ joinL (ts'.map (substAllL nl)) = _
      rw [hw1, substAllL_skip (close_zone hu) w, List.append_assoc]

/-- The key lemma for claim C6's plain path: a token occurrence in the
flattened text of a list of pieces survives substituting every piece,
even when the occurrence spans piece boundaries, as long as every
mapping key is a grammar name different from the token's name. -/
theorem joinL_keep_occ {N : List Char} (hN2 : ∀ c ∈ N, isTok c = true)
    {nl : List (List Char × List Char)}
    (hkeys : ∀ kv ∈ nl, (∀ c ∈ kv.1, isTok c = true) ∧ kv.1 ≠ N) :
    ∀ ts : List (List Char), containsL (pattL N) (joinL ts) = true →
      containsL (pattL N) (joinL (ts.map (substAllL nl))) = true := by
  have hkeys' : ∀ kv ∈ nl, ∀ c ∈ kv.1, isTok c = true := fun kv hkv => (hkeys kv hkv).1
  intro ts
  induction ts with
  | nil =>
    intro h
    exact absurd h (by rw [show joinL ([] : List (List Char)) = [] from rfl,
      containsL_nil_patt]; simp)
  | cons y ts' ih =>
    intro h
    obtain ⟨a, b, hab⟩ := containsL_iff.mp h
    have hab' : y ++ joinL ts' = a ++ (pattL N ++ b) := by
      rw [← List.append_assoc]
      exact hab
    rcases List.append_eq_append_iff.mp hab' with ⟨w, hw1, hw2⟩ | ⟨w, hw1, hw2⟩
    · have hocc : containsL (pattL N) (joinL ts') = true :=
        containsL_iff.mpr ⟨w, b, by rw [hw2, List.append_assoc]⟩
      show containsL (pattL N) (substAllL nl y ++ joinL (ts'.map (substAllL nl))) = true
      exact containsL_append_right _ (ih hocc)
    · rcases List.append_eq_append_iff.mp hw2 with ⟨z, hz1, hz2⟩ | ⟨z, hz1, hz2⟩
      · have hy : containsL (pattL N) y = true :=
          containsL_iff.mpr ⟨a, z, by rw [hw1, hz1, List.append_assoc]⟩
        show containsL (pattL N) (substAllL nl y ++ joinL (ts'.map (substAllL nl))) = true
        exact containsL_append_left _ (substAllL_keep_occ hN2 hkeys hy)
      · cases w with
        | nil =>
          rw [List.nil_append] at hz1
          have hocc : containsL (pattL N) (joinL ts') = true :=
            containsL_iff.mpr ⟨[], b, by rw [hz2, ← hz1]; rfl⟩
          show containsL (pattL N) (substAllL nl y ++ joinL (ts'.map (substAllL nl))) = true
          exact containsL_append_right _ (ih hocc)
        | cons w0 w1 =>
          cases z with
          | nil =>
            rw [List.append_nil] at hz1
            have hy : containsL (pattL N) y = true :=
              containsL_iff.mpr ⟨a, [], by rw [hw1, ← hz1, List.append_nil]⟩
            show containsL (pattL N)
              (substAllL nl y ++ joinL (ts'.map (substAllL nl))) = true
            exact containsL_append_left _ (substAllL_keep_occ hN2 hkeys hy)
          | cons z0 z1 =>
            have hw0 : w0 = '[' := by
              have hsh : '[' :: (N ++ [']']) = w0 :: (w1 ++ z0 :: z1) := hz1
              injection hsh with e _
              exact e.symm
            subst hw0
            have hsplit : N ++ [']'] = w1 ++ z0 :: z1 := by
              have hsh : '[' :: (N ++ [']']) = '[' :: (w1 ++ z0 :: z1) := hz1
              injection hsh with e1 e2
            rcases List.append_eq_append_iff.mp hsplit with ⟨zz, hzz1, hzz2⟩ |
              ⟨zz, hzz1, hzz2⟩
            · cases zz with
              | cons _ _ =>
                exfalso
                have := congrArg List.length hzz2
                simp at this
              | nil =>
                rw [List.nil_append] at hzz2
                rw [List.append_nil] at hzz1
                injection hzz2 with ez0 ez1
                obtain ⟨b', hb'⟩ := joinL_keep_close_pre nl ts' [] b
                  (fun c hc => absurd hc (List.not_mem_nil _))
                  (by rw [hz2, ← ez0, ← ez1]; rfl)
                have hfy : substAllL nl y = substAllL nl a ++ '[' :: w1 := by
                  rw [hw1]
                  exact substAllL_keep_suffix hkeys'
                    (fun hmem => tok_ne_close (hN2 ']' (by rw [hzz1] at hmem; exact hmem)) rfl) a
                show containsL (pattL N)
                  (substAllL nl y ++ joinL (ts'.map (substAllL nl))) = true
                rw [hfy, hb']
                refine containsL_iff.mpr ⟨substAllL nl a, b', ?_⟩
                rw [List.append_assoc, List.append_assoc]
                rw [hzz1]
                simp [pattL]
            · have hw1tok : ∀ c ∈ w1, isTok c = true := fun c hc =>
                hN2 c (by rw [hzz1]; exact List.mem_append_left _ hc)
              have hzztok : ∀ c ∈ zz, isTok c = true := fun c hc =>
                hN2 c (by rw [hzz1]; exact List.mem_append_right _ hc)
              obtain ⟨b', hb'⟩ := joinL_keep_close_pre nl ts' zz b hzztok
                (by rw [hz2, hzz2])
              have hfy : substAllL nl y = substAllL nl a ++ '[' :: w1 := by
                rw [hw1]
                exact substAllL_keep_suffix hkeys'
                  (fun hmem => tok_ne_close (hw1tok ']' hmem) rfl) a
              show containsL (pattL N)
                (substAllL nl y ++ joinL (ts'.map (substAllL nl))) = true
              rw [hfy, hb']
              refine containsL_iff.mpr ⟨substAllL nl a, b', ?_⟩
              rw [List.append_assoc, List.append_assoc]
              rw [pattL, hzz1]
              simp [List.append_assoc]

/-! Bridges between string-level and character-list-level views. -/

theorem substAll_data (nl : List (String × String)) (s : String) :
    (substAll nl s).data =
      substAllL (nl.map fun kv => (kv.1.data, kv.2.data)) s.data := by
  induction nl generalizing s with
  | nil => rfl
  | cons kv nl ih =>
    rw [substAll_cons, ih]
    rfl

theorem joinS_data (L : List String) : (joinS L).data = joinL (L.map String.data) := by
  induction L with
  | nil => rfl
  | cons s L ih =>
    show (s ++ joinS L).data = s.data ++ joinL (L.map String.data)
    rw [← ih]
    rfl

theorem flatten_data (runs : List Run) :
    (flatten runs).data = joinL (runs.map fun r => r.text.data) := by
  unfold flatten
  rw [joinS_data, List.map_map]
  rfl

theorem str_append_assoc (s t u : String) : (s ++ t) ++ u = s ++ (t ++ u) := by
  show String.mk ((s.data ++ t.data) ++ u.data) = String.mk (s.data ++ (t.data ++ u.data))
  rw [List.append_assoc]

theorem flattenElems_append (xs ys : List PElem) :
    flattenElems (xs ++ ys) = flattenElems xs ++ flattenElems ys := by
  induction xs with
  | nil => rfl
  | cons e xs ih =>
    cases e with
    | run st t =>
      show t ++ flattenElems (xs ++ ys) = (t ++ flattenElems xs) ++ flattenElems ys
      rw [ih, str_append_assoc]
    | hlink u d =>
      show "" ++ flattenElems (xs ++ ys) = ("" ++ flattenElems xs) ++ flattenElems ys
      rw [ih]
      rfl

theorem flattenElems_linkParts (nl : List (String × String)) (url disp : String) :
    ∀ parts : List String,
      flattenElems (linkParts nl url disp parts) = joinS (parts.map (substAll nl)) := by
  intro parts
  induction parts with
  | nil => rfl
  | cons p rest ih =>
    cases rest with
    | nil =>
      rw [linkParts_single]
      by_cases hc : substAll nl p = ""
      · rw [if_pos hc]
        show ("" : String) = substAll nl p ++ ""
        rw [hc]
        rfl
      · rw [if_neg hc]
        rfl
    | cons q rest' =>
      rw [linkParts_cons₂, flattenElems_append]
      show _ = substAll nl p ++ joinS ((q :: rest').map (substAll nl))
      rw [← ih]
      by_cases hc : substAll nl p = ""
      · rw [if_pos hc, hc]
        show ("" : String) ++
            flattenElems (PElem.hlink url disp :: linkParts nl url disp (q :: rest')) =
          "" ++ flattenElems (linkParts nl url disp (q :: rest'))
        rfl
      · rw [if_neg hc]
        show (substAll nl p ++ "") ++
            flattenElems (PElem.hlink url disp :: linkParts nl url disp (q :: rest')) =
          substAll nl p ++ flattenElems (linkParts nl url disp (q :: rest'))
        rw [append_empty_str]
        rfl

/-- C6: a grammar token whose name is not a key of the mapping is left
in the output's flattened text by replace_in_paragraph (the embedding
is a total function, so no error is raised), assuming the mapping's
keys are grammar names. -/
theorem C6_unknown_token_kept (runs : List Run) (m : List (String × String)) (N : String)
    (hN1 : N.data ≠ []) (hN2 : ∀ c ∈ N.data, isTok c = true)
    (hkeys : ∀ kv ∈ m, ∀ c ∈ kv.1.data, isTok c = true)
    (hNk : ∀ kv ∈ m, kv.1 ≠ N)
    (hcont : pyContains (flatten runs) ("[" ++ N ++ "]") = true) :
    pyContains (flattenElems (replaceInParagraph runs m).1) ("[" ++ N ++ "]") = true := by
  have hcontL : containsL (pattL N.data) (flatten runs).data = true := by
    have h0 := hcont
    unfold pyContains at h0
    rw [pattern_data] at h0
    exact h0
  have hkeysL : ∀ kv' ∈ (nonLinkKeys m).map (fun kv => (kv.1.data, kv.2.data)),
      (∀ c ∈ kv'.1, isTok c = true) ∧ kv'.1 ≠ N.data := by
    intro kv' hkv'
    obtain ⟨kv, hkv, rfl⟩ := List.mem_map.mp hkv'
    have hm : kv ∈ m := (List.mem_filter.mp hkv).1
    exact ⟨hkeys kv hm, fun he => hNk kv hm (str_data_inj he)⟩
  have hfun : (String.data ∘ substAll (nonLinkKeys m)) ∘ String.mk =
      substAllL ((nonLinkKeys m).map fun kv => (kv.1.data, kv.2.data)) := by
    funext l
    show (substAll (nonLinkKeys m) (String.mk l)).data = _
    rw [substAll_data]
  unfold replaceInParagraph
  by_cases h1 : driveCond runs m
  · rw [if_pos h1]
    have hmem : ("LINK_DRIVE", lookupStr m "LINK_DRIVE") ∈ m := by
      have h2 := h1.2
      unfold lookupStr at h2 ⊢
      cases hl : List.lookup "LINK_DRIVE" m with
      | none => rw [hl] at h2; exact absurd rfl h2
      | some v => exact lookup_mem hl
    have hKN : "LINK_DRIVE".data ≠ N.data := fun he => hNk _ hmem (str_data_inj he)
    show pyContains (flattenElems (linkParts (nonLinkKeys m) (lookupStr m "LINK_DRIVE")
      (if lookupStr m "LINK_DRIVE_TEXT" = "" then "Link Drive"
       else lookupStr m "LINK_DRIVE_TEXT")
      (pySplit (flatten runs) "[LINK_DRIVE]"))) ("[" ++ N ++ "]") = true
    unfold pyContains
    rw [pattern_data, flattenElems_linkParts, joinS_data, List.map_map]
    unfold pySplit
    rw [List.map_map, hfun]
    obtain ⟨part, hpm, hpc⟩ := splitL_keep_occ (K := "LINK_DRIVE".data)
      (by decide) hN2 hKN hcontL
    exact containsL_joinL_of_mem hpm (substAllL_keep_occ hN2 hkeysL hpc)
  · rw [if_neg h1]
    by_cases h2 : downloadCond runs m
    · rw [if_pos h2]
      have hmem : ("LINK_PARA_DOWNLOAD", lookupStr m "LINK_PARA_DOWNLOAD") ∈ m := by
        have h3 := h2.2
        unfold lookupStr at h3 ⊢
        cases hl : List.lookup "LINK_PARA_DOWNLOAD" m with
        | none => rw [hl] at h3; exact absurd rfl h3
        | some v => exact lookup_mem hl
      have hKN : "LINK_PARA_DOWNLOAD".data ≠ N.data := fun he =>
        hNk _ hmem (str_data_inj he)
      show pyContains (flattenElems (linkParts (nonLinkKeys m)
        (lookupStr m "LINK_PARA_DOWNLOAD") "Link para download"
        (pySplit (flatten runs) "[LINK_PARA_DOWNLOAD]"))) ("[" ++ N ++ "]") = true
      unfold pyContains
      rw [pattern_data, flattenElems_linkParts, joinS_data, List.map_map]
      unfold pySplit
      rw [List.map_map, hfun]
      obtain ⟨part, hpm, hpc⟩ := splitL_keep_occ (K := "LINK_PARA_DOWNLOAD".data)
        (by decide) hN2 hKN hcontL
      exact containsL_joinL_of_mem hpm (substAllL_keep_occ hN2 hkeysL hpc)
    · rw [if_neg h2]
      unfold plainPath
      have hpr : (flatten (plainRuns runs m)).data =
          joinL ((runs.map fun r => r.text.data).map
            (substAllL ((nonLinkKeys m).map fun kv => (kv.1.data, kv.2.data)))) := by
        unfold plainRuns
        rw [flatten_data, List.map_map, List.map_map]
        congr 1
        exact List.map_congr_left (fun r _ => substAll_data (nonLinkKeys m) r.text)
      have hoccP : containsL (pattL N.data) (flatten (plainRuns runs m)).data = true := by
        rw [hpr]
        apply joinL_keep_occ hN2 hkeysL
        rw [← flatten_data]
        exact hcontL
      by_cases he : (pyFindTokens (flatten (plainRuns runs m))).isEmpty = true
      · rw [if_pos he]
        show pyContains (flattenElems ((plainRuns runs m).map
          fun r => PElem.run r.style r.text)) ("[" ++ N ++ "]") = true
        unfold pyContains
        rw [pattern_data, flattenElems_map_run]
        exact hoccP
      · rw [if_neg he]
        show pyContains (flattenElems [PElem.run none
          (substAll (nonLinkKeys m) (flatten (plainRuns runs m)))]) ("[" ++ N ++ "]") = true
        unfold pyContains
        rw [pattern_data]
        show containsL (pattL N.data)
          ((substAll (nonLinkKeys m) (flatten (plainRuns runs m)) ++ "").data) = true
        rw [append_empty_str, substAll_data]
        exact substAllL_keep_occ hN2 hkeysL hoccP

theorem C6_unknown_token_kept_w :
    pyContains (flattenElems (replaceInParagraph [⟨none, "[FOO] x"⟩]
      [("CNPJ", "1")]).1) ("[" ++ "FOO" ++ "]") = true :=
  C6_unknown_token_kept _ _ "FOO" (by decide) (by decide) (by decide) (by decide) (by decide)

/-! Additional machinery: identity of the substitution on token-free
text, behaviour of the primitives on a single bracketed token in
bracket-free context, and completeness of the token scanner. -/

theorem or_false_split {x y : Bool} (h : (x || y) = false) : x = false ∧ y = false := by
  cases x
  · cases y
    · exact ⟨rfl, rfl⟩
    · exact absurd h (by decide)
  · cases y
    · exact absurd h (by decide)
    · exact absurd h (by decide)

theorem replL_of_not_contains {pat rep : List Char} :
    ∀ {s : List Char}, containsL pat s = false → replL pat rep s = s := by
  intro s
  induction s with
  | nil => intro _; rfl
  | cons c rest ih =>
    intro h
    have h' : (isPre pat (c :: rest) || containsL pat rest) = false := h
    rw [replL_neg (or_false_split h').1, ih (or_false_split h').2]

theorem pyReplace_of_not_contains {s pat rep : String} (h : pyContains s pat = false) :
    pyReplace s pat rep = s := by
  show String.mk (replL pat.data rep.data s.data) = s
  rw [replL_of_not_contains h]

theorem substAll_fixed : ∀ (nl : List (String × String)) {t : String},
    (∀ kv ∈ nl, pyContains t ("[" ++ kv.1 ++ "]") = false) → substAll nl t = t := by
  intro nl
  induction nl with
  | nil => intro t _; rfl
  | cons kv nl ih =>
    intro t h
    rw [substAll_cons, pyReplace_of_not_contains (h kv (List.mem_cons_self _ _))]
    exact ih (fun kv' hkv' => h kv' (List.mem_cons_of_mem _ hkv'))

theorem substAll_append (l₁ l₂ : List (String × String)) (s : String) :
    substAll (l₁ ++ l₂) s = substAll l₂ (substAll l₁ s) := by
  unfold substAll
  rw [List.foldl_append]

theorem mem_takeWhile_tok {l : List Char} {x : Char} :
    x ∈ List.takeWhile isTok l → isTok x = true := by
  induction l with
  | nil => intro h; exact absurd h (List.not_mem_nil _)
  | cons y ys ih =>
    intro h
    rw [List.takeWhile_cons] at h
    by_cases hy : isTok y = true
    · rw [if_pos hy] at h
      rcases List.mem_cons.mp h with he | hm
      · rw [he]; exact hy
      · exact ih hm
    · rw [if_neg hy] at h
      exact absurd h (List.not_mem_nil _)

theorem isCloseHead_shape {l : List Char} (h : isCloseHead l = true) : l = ']' :: l.tail := by
  unfold isCloseHead at h
  split at h
  · rfl
  · exact absurd h Bool.false_ne_true

/-- Re-association of a bracketed token between two context pieces. -/
theorem ctx_assoc (x K y : List Char) :
    x ++ pattL K ++ y = x ++ ('[' :: (K ++ (']' :: y))) := by
  rw [List.append_assoc, pattL, List.cons_append, List.append_assoc]
  rfl

/-- In a bracket-free context around a single token `[K]`, the only
grammar token that occurs is `[K]` itself. -/
theorem patt_in_ctx {K N pre post : List Char}
    (hK : ∀ c ∈ K, isTok c = true) (hN : ∀ c ∈ N, isTok c = true)
    (hpre : ∀ c ∈ pre, c ≠ '[') (hpost : ∀ c ∈ post, c ≠ '[')
    (h : containsL (pattL N) (pre ++ pattL K ++ post) = true) : N = K := by
  obtain ⟨a, b, hab⟩ := containsL_iff.mp h
  have hab2 : pre ++ (pattL K ++ post) = a ++ '[' :: ((N ++ [']']) ++ b) := by
    rw [← List.append_assoc, hab, List.append_assoc]
    rfl
  obtain ⟨a', ha'⟩ := seg_split hpre hab2
  rw [ha', List.append_assoc] at hab2
  have hab3 : pattL K ++ post = a' ++ '[' :: ((N ++ [']']) ++ b) :=
    List.append_cancel_left hab2
  have hab4 : pattL K ++ post = a' ++ pattL N ++ b := by
    rw [hab3]
    nth_rewrite 2 [List.append_assoc]
    rfl
  rcases patt_overlap hK hab4 with h0 | ⟨a'', ha''⟩
  · subst h0
    rw [List.nil_append] at hab4
    have h5 : '[' :: ((K ++ [']']) ++ post) = '[' :: ((N ++ [']']) ++ b) := hab4
    injection h5 with h5a h6
    rw [List.append_assoc, List.append_assoc] at h6
    exact (tok_head_eq hK hN h6).symm
  · rw [ha''] at hab4
    have h8 : pattL K ++ post = pattL K ++ (a'' ++ (pattL N ++ b)) := by
      rw [hab4, List.append_assoc, List.append_assoc]
    have h7 : post = a'' ++ (pattL N ++ b) := List.append_cancel_left h8
    have hmem : '[' ∈ post := by
      rw [h7]
      exact List.mem_append_right _ (List.mem_append_left _ (open_mem_patt N))
    exact absurd rfl (hpost '[' hmem)

theorem patt_in_ctx_r {K N pre post : List Char}
    (hK : ∀ c ∈ K, isTok c = true) (hN : ∀ c ∈ N, isTok c = true)
    (hpre : ∀ c ∈ pre, c ≠ '[') (hpost : ∀ c ∈ post, c ≠ '[')
    (h : containsL (pattL N) (pre ++ ('[' :: (K ++ (']' :: post)))) = true) : N = K := by
  rw [← ctx_assoc] at h
  exact patt_in_ctx hK hN hpre hpost h

/-- `str.replace` on a single token occurrence in bracket-free
context: the value is inserted verbatim and scanning resumes after it,
for an arbitrary replacement value. -/
theorem replL_ctx {K v pre post : List Char}
    (hpre : ∀ c ∈ pre, c ≠ '[') (hpost : '[' ∉ post) :
    replL (pattL K) v (pre ++ pattL K ++ post) = pre ++ (v ++ post) := by
  rw [List.append_assoc]
  rw [show replL (pattL K) v (pre ++ (pattL K ++ post)) =
      pre ++ replL (pattL K) v (pattL K ++ post) from replL_skip hpre _]
  rw [replL_pos (patt_ne_nil K) (isPre_append_self (pattL K) post), List.drop_left]
  rw [replL_no_occ (open_mem_patt K) hpost]

theorem replL_ctx_r {K v pre post : List Char}
    (hpre : ∀ c ∈ pre, c ≠ '[') (hpost : '[' ∉ post) :
    replL (pattL K) v (pre ++ ('[' :: (K ++ (']' :: post)))) = pre ++ (v ++ post) := by
  rw [← ctx_assoc]
  exact replL_ctx hpre hpost

/-- A token of a different name never matches at the opening bracket
of `[K]`. -/
theorem patt_pre_false {K N : List Char} (hK : ∀ c ∈ K, isTok c = true)
    (hN : ∀ c ∈ N, isTok c = true) (hKN : N ≠ K) (t : List Char) :
    isPre (pattL N) ('[' :: (K ++ (']' :: t))) = false := by
  apply bool_false_of_not
  intro hp
  obtain ⟨u, hu⟩ := isPre_iff.mp hp
  have h1 : '[' :: (K ++ (']' :: t)) = '[' :: ((N ++ [']']) ++ u) := hu
  injection h1 with h1a h2
  rw [List.append_assoc] at h2
  exact hKN (tok_head_eq hK hN h2).symm

/-- `str.split` walks through a zone with no opening bracket, the zone
landing in the current segment. -/
theorem splitL_skip {p' : List Char} :
    ∀ {u : List Char}, (∀ c ∈ u, c ≠ '[') → ∀ {t seg : List Char} {segs : List (List Char)},
      splitOnL ('[' :: p') t = seg :: segs →
      splitOnL ('[' :: p') (u ++ t) = (u ++ seg) :: segs := by
  intro u
  induction u with
  | nil =>
    intro _ t seg segs h
    rw [List.nil_append, List.nil_append]
    exact h
  | cons x u' ih =>
    intro hu t seg segs h
    have hpre : isPre ('[' :: p') (x :: (u' ++ t)) = false := by
      show (('[' == x) && isPre p' (u' ++ t)) = false
      rw [show ('[' == x) = false from by
        rw [beq_eq_false_iff_ne]
        exact fun hh => hu x (List.mem_cons_self _ _) hh.symm, Bool.false_and]
    exact splitL_neg hpre (ih (fun c hc => hu c (List.mem_cons_of_mem _ hc)) h)

theorem splitL_zone_all {p' w : List Char} (hw : ∀ c ∈ w, c ≠ '[') :
    splitOnL ('[' :: p') w = [w] := by
  have h := splitL_skip hw (show splitOnL ('[' :: p') [] = [] :: [] from rfl)
  rw [List.append_nil] at h
  exact h

/-- Splitting on `[N]` a string made of a bracket-free prefix, a
different token `[K]`, a bracket-free middle, the pattern `[N]` itself
and a bracket-free suffix yields exactly the two expected parts. -/
theorem splitL_ctx {K N : List Char} (hK : ∀ c ∈ K, isTok c = true)
    (hN : ∀ c ∈ N, isTok c = true) (hKN : N ≠ K)
    {p1 p2 p3 : List Char}
    (h1 : ∀ c ∈ p1, c ≠ '[') (h2 : ∀ c ∈ p2, c ≠ '[') (h3 : ∀ c ∈ p3, c ≠ '[') :
    splitOnL (pattL N) (p1 ++ ('[' :: (K ++ (']' :: (p2 ++ (pattL N ++ p3)))))) =
      [p1 ++ ('[' :: (K ++ (']' :: p2))), p3] := by
  have hz3 : splitOnL (pattL N) p3 = [p3] := splitL_zone_all h3
  have hstep1 : splitOnL (pattL N) (pattL N ++ p3) = [] :: [p3] := by
    rw [splitL_pos (patt_ne_nil N) (isPre_append_self (pattL N) p3), List.drop_left, hz3]
  have hstep2 : splitOnL (pattL N) (p2 ++ (pattL N ++ p3)) = p2 :: [p3] := by
    have h0 := splitL_skip h2 hstep1
    rw [List.append_nil] at h0
    exact h0
  have hstep3 : splitOnL (pattL N) (']' :: (p2 ++ (pattL N ++ p3))) = (']' :: p2) :: [p3] := by
    have hpre : isPre (pattL N) (']' :: (p2 ++ (pattL N ++ p3))) = false := by
      show (('[' == ']') && isPre (N ++ [']']) (p2 ++ (pattL N ++ p3))) = false
      rw [show ('[' == ']') = false from by decide, Bool.false_and]
    exact splitL_neg hpre hstep2
  have hstep4 : splitOnL (pattL N) (K ++ (']' :: (p2 ++ (pattL N ++ p3)))) =
      (K ++ (']' :: p2)) :: [p3] :=
    splitL_skip (fun c hc => tok_ne_open (hK c hc)) hstep3
  have hstep5 : splitOnL (pattL N) ('[' :: (K ++ (']' :: (p2 ++ (pattL N ++ p3))))) =
      ('[' :: (K ++ (']' :: p2))) :: [p3] :=
    splitL_neg (patt_pre_false hK hN hKN _) hstep4
  exact splitL_skip h1 hstep5

/-- The token scanner skips a zone with no opening bracket. -/
theorem findTokensL_zone {w : List Char} (hw : ∀ c ∈ w, c ≠ '[') :
    ∀ t : List Char, findTokensL (w ++ t) = findTokensL t := by
  induction w with
  | nil => intro t; rw [List.nil_append]
  | cons x w' ih =>
    intro t
    rw [List.cons_append, findTokensL_cons]
    rw [show (x == '[') = false from by
      rw [beq_eq_false_iff_ne]
      exact hw x (List.mem_cons_self _ _)]
    rw [Bool.false_and, Bool.false_and, if_neg Bool.false_ne_true]
    exact ih (fun c hc => hw c (List.mem_cons_of_mem _ hc)) t

/-- The token scanner on a single token in bracket-free context finds
exactly that token. -/
theorem findTokensL_ctx {K : List Char} (hK1 : K ≠ []) (hK2 : ∀ c ∈ K, isTok c = true)
    {p1 p2 : List Char} (h1 : ∀ c ∈ p1, c ≠ '[') (h2 : ∀ c ∈ p2, c ≠ '[') :
    findTokensL (p1 ++ ('[' :: (K ++ (']' :: p2)))) = [K] := by
  rw [findTokensL_zone h1, findTokensL_cons,
    if_pos (by rw [takeWhile_tok hK2, dropWhile_tok hK2, isEmpty_false_of_ne_nil hK1]; rfl),
    takeWhile_tok hK2, dropWhile_tok hK2]
  show K :: findTokensL p2 = [K]
  have h0 := findTokensL_zone h2 []
  rw [List.append_nil] at h0
  rw [h0]
  rfl

/-- Completeness of the token scanner, membership form: a string
containing the well-formed grammar token `[N]` yields a scan that
reports the name `N`. -/
theorem findTokensL_mem_aux {N : List Char} (hN1 : N ≠ []) (hN2 : ∀ c ∈ N, isTok c = true) :
    ∀ n : Nat, ∀ s : List Char, s.length ≤ n → containsL (pattL N) s = true →
      N ∈ findTokensL s := by
  intro n
  induction n with
  | zero =>
    intro s hs h
    have hnil : s = [] := List.eq_nil_of_length_eq_zero (Nat.le_zero.mp hs)
    subst hnil
    exact absurd h (by rw [containsL_nil_patt]; simp)
  | succ k ih =>
    intro s hs h
    cases s with
    | nil => exact absurd h (by rw [containsL_nil_patt]; simp)
    | cons c rest =>
      rcases Bool.or_eq_true _ _ |>.mp h with hl | hr
      · obtain ⟨t, ht⟩ := isPre_iff.mp hl
        have ht' : c :: rest = '[' :: (N ++ (']' :: t)) := by
          rw [ht]
          show pattL N ++ t = _
          rw [pattL, List.cons_append, List.append_assoc]
          rfl
        injection ht' with hc1 hrest
        subst hc1
        subst hrest
        rw [findTokensL_cons,
          if_pos (by rw [takeWhile_tok hN2, dropWhile_tok hN2, isEmpty_false_of_ne_nil hN1]; rfl),
          takeWhile_tok hN2]
        exact List.mem_cons_self _ _
      · rw [findTokensL_cons]
        by_cases hcnd : (c == '[' && isCloseHead (List.dropWhile isTok rest)
            && !(List.takeWhile isTok rest).isEmpty) = true
        · rw [if_pos hcnd]
          have hch : isCloseHead (List.dropWhile isTok rest) = true :=
            ((Bool.and_eq_true _ _).mp ((Bool.and_eq_true _ _).mp hcnd).1).2
          have hD := isCloseHead_shape hch
          have hMD : List.takeWhile isTok rest ++ List.dropWhile isTok rest = rest :=
            List.takeWhile_append_dropWhile isTok rest
          obtain ⟨a, b, hab⟩ := containsL_iff.mp hr
          have hform : (List.takeWhile isTok rest ++ [']']) ++
              (List.dropWhile isTok rest).tail = a ++ '[' :: ((N ++ [']']) ++ b) := by
            rw [List.append_assoc]
            show List.takeWhile isTok rest ++ (']' :: (List.dropWhile isTok rest).tail) = _
            rw [← hD, hMD, hab]
            nth_rewrite 1 [List.append_assoc]
            rfl
          have hwz : ∀ x ∈ List.takeWhile isTok rest ++ [']'], x ≠ '[' := by
            intro x hx
            rcases List.mem_append.mp hx with hx1 | hx2
            · exact tok_ne_open (mem_takeWhile_tok hx1)
            · rw [List.mem_singleton.mp hx2]; decide
          obtain ⟨a', ha'⟩ := seg_split hwz hform
          have hform2 : (List.takeWhile isTok rest ++ [']']) ++
              (List.dropWhile isTok rest).tail =
              (List.takeWhile isTok rest ++ [']']) ++ (a' ++ '[' :: ((N ++ [']']) ++ b)) := by
            rw [hform, ha', List.append_assoc]
          have htail0 := List.append_cancel_left hform2
          have htail : (List.dropWhile isTok rest).tail = a' ++ pattL N ++ b := by
            rw [htail0]
            nth_rewrite 2 [List.append_assoc]
            rfl
          have hlen2 : (List.dropWhile isTok rest).tail.length ≤ k := by
            have hd1 := dwLenLe isTok rest
            have hd2 : (List.dropWhile isTok rest).tail.length =
                (List.dropWhile isTok rest).length - 1 := List.length_tail _
            have hd3 : rest.length + 1 ≤ k + 1 := hs
            omega
          exact List.mem_cons_of_mem _
            (ih _ hlen2 (containsL_iff.mpr ⟨a', b, htail⟩))
        · rw [if_neg hcnd]
          have hlen1 : rest.length ≤ k := by
            have hd3 : rest.length + 1 ≤ k + 1 := hs
            omega
          exact ih rest hlen1 hr

theorem findTokensL_mem {N : List Char} (hN1 : N ≠ []) (hN2 : ∀ c ∈ N, isTok c = true)
    {s : List Char} (h : containsL (pattL N) s = true) : N ∈ findTokensL s :=
  findTokensL_mem_aux hN1 hN2 s.length s (le_refl _) h

/-- The plain-key substitution loop over a mapping whose iteration
order is `m₁`, then `(K, v)`, then `m₂`, applied to a single token
`[K]` in bracket-free context: the keys of `m₁` (all different from
`K`) find no occurrence, `K`'s pass inserts `v` verbatim, and the keys
of `m₂` (whose tokens do not occur in the result) leave it unchanged. -/
theorem substAll_ctx_split (K v pre post : String)
    (hK : ∀ c ∈ K.data, isTok c = true)
    (hpre : ∀ c ∈ pre.data, c ≠ '[') (hpost : ∀ c ∈ post.data, c ≠ '[')
    (m₁ m₂ : List (String × String))
    (hm₁k : ∀ kv ∈ m₁, ∀ c ∈ kv.1.data, isTok c = true)
    (hm₁ : ∀ kv ∈ m₁, kv.1 ≠ K)
    (hafter : ∀ kv ∈ m₂, pyContains (pre ++ v ++ post) ("[" ++ kv.1 ++ "]") = false) :
    substAll (m₁ ++ (K, v) :: m₂) (pre ++ ("[" ++ K ++ "]") ++ post) = pre ++ v ++ post := by
  have hfix : ∀ kv ∈ m₁,
      pyContains (pre ++ ("[" ++ K ++ "]") ++ post) ("[" ++ kv.1 ++ "]") = false := by
    intro kv hkv
    apply bool_false_of_not
    intro hcon
    have hcon' : containsL (pattL kv.1.data) (pre.data ++ pattL K.data ++ post.data) = true :=
      hcon
    exact hm₁ kv hkv (str_data_inj (patt_in_ctx hK (hm₁k kv hkv) hpre hpost hcon'))
  rw [substAll_append, substAll_fixed m₁ hfix, substAll_cons]
  show substAll m₂ (pyReplace (pre ++ ("[" ++ K ++ "]") ++ post) ("[" ++ K ++ "]") v) =
    pre ++ v ++ post
  rw [show pyReplace (pre ++ ("[" ++ K ++ "]") ++ post) ("[" ++ K ++ "]") v =
      pre ++ v ++ post from by
    show String.mk (replL (pattL K.data) v.data (pre.data ++ pattL K.data ++ post.data)) =
      pre ++ v ++ post
    rw [replL_ctx hpre (fun hmem => hpost '[' hmem rfl)]
    exact congrArg String.mk (List.append_assoc pre.data v.data post.data).symm]
  exact substAll_fixed m₂ hafter

/-- `replace_in_paragraph` on a single-run paragraph holding one token
`[K]` of a plain key in bracket-free context: when the per-run result
carries no grammar token, the run is rewritten in place (style kept),
with the value inserted verbatim and no warning emitted. -/
theorem single_run_ctx_core (σ : Option Nat) (K pre post v : String)
    (m m₁ m₂ : List (String × String))
    (hK2 : ∀ c ∈ K.data, isTok c = true)
    (hkeys : ∀ kv ∈ m, ∀ c ∈ kv.1.data, isTok c = true)
    (hkeysne : ∀ kv ∈ m, kv.1.data ≠ [])
    (hpre : ∀ c ∈ pre.data, c ≠ '[') (hpost : ∀ c ∈ post.data, c ≠ '[')
    (hsplit : nonLinkKeys m = m₁ ++ (K, v) :: m₂)
    (hm₁ : ∀ kv ∈ m₁, kv.1 ≠ K)
    (hnotok : pyFindTokens (pre ++ v ++ post) = []) :
    replaceInParagraph [⟨σ, pre ++ ("[" ++ K ++ "]") ++ post⟩] m =
      ([PElem.run σ (pre ++ v ++ post)], []) := by
  have hKmem : (K, v) ∈ nonLinkKeys m := by
    rw [hsplit]
    exact List.mem_append_right _ (List.mem_cons_self _ _)
  have hKfil := (List.mem_filter.mp hKmem).2
  have hKD : K ≠ "LINK_DRIVE" := by
    intro he
    rw [he] at hKfil
    have hx : (!(linkKeyNames.contains "LINK_DRIVE")) = true := hKfil
    exact absurd hx (by decide)
  have hKP : K ≠ "LINK_PARA_DOWNLOAD" := by
    intro he
    rw [he] at hKfil
    have hx : (!(linkKeyNames.contains "LINK_PARA_DOWNLOAD")) = true := hKfil
    exact absurd hx (by decide)
  have hdc : ¬ driveCond [⟨σ, pre ++ ("[" ++ K ++ "]") ++ post⟩] m := by
    apply driveCond_false
    rw [flatten_single]
    apply bool_false_of_not
    intro hcon
    have hcon' : containsL (pattL "LINK_DRIVE".data)
        (pre.data ++ pattL K.data ++ post.data) = true := hcon
    exact hKD (str_data_inj (patt_in_ctx hK2 (by decide) hpre hpost hcon')).symm
  have hdlc : ¬ downloadCond [⟨σ, pre ++ ("[" ++ K ++ "]") ++ post⟩] m := by
    apply downloadCond_false
    rw [flatten_single]
    apply bool_false_of_not
    intro hcon
    have hcon' : containsL (pattL "LINK_PARA_DOWNLOAD".data)
        (pre.data ++ pattL K.data ++ post.data) = true := hcon
    exact hKP (str_data_inj (patt_in_ctx hK2 (by decide) hpre hpost hcon')).symm
  have hm₁k : ∀ kv ∈ m₁, ∀ c ∈ kv.1.data, isTok c = true := by
    intro kv hkv
    have hnl : kv ∈ nonLinkKeys m := by
      rw [hsplit]
      exact List.mem_append_left _ hkv
    exact hkeys kv (List.mem_filter.mp hnl).1
  have hm₂m : ∀ kv ∈ m₂, kv ∈ m := by
    intro kv hkv
    have hnl : kv ∈ nonLinkKeys m := by
      rw [hsplit]
      exact List.mem_append_right _ (List.mem_cons_of_mem _ hkv)
    exact (List.mem_filter.mp hnl).1
  have hfind : findTokensL (pre ++ v ++ post).data = [] := List.map_eq_nil_iff.mp hnotok
  have hafter : ∀ kv ∈ m₂, pyContains (pre ++ v ++ post) ("[" ++ kv.1 ++ "]") = false := by
    intro kv hkv
    apply bool_false_of_not
    intro hcon
    have hcon' : containsL (pattL kv.1.data) (pre ++ v ++ post).data = true := hcon
    exact findTokensL_ne_nil (hkeysne kv (hm₂m kv hkv)) (hkeys kv (hm₂m kv hkv)) hcon' hfind
  have hsub : substAll (nonLinkKeys m) (pre ++ ("[" ++ K ++ "]") ++ post) =
      pre ++ v ++ post := by
    rw [hsplit]
    exact substAll_ctx_split K v pre post hK2 hpre hpost m₁ m₂ hm₁k hm₁ hafter
  unfold replaceInParagraph
  rw [if_neg hdc, if_neg hdlc]
  have hpr : plainRuns [⟨σ, pre ++ ("[" ++ K ++ "]") ++ post⟩] m =
      [⟨σ, pre ++ v ++ post⟩] := by
    unfold plainRuns
    rw [List.map_cons, List.map_nil, hsub]
  unfold plainPath
  rw [hpr, flatten_single, hnotok]
  rfl

/-- C8 amended: a key's substitution pass inserts its value verbatim
and never rescans its own insertion — for an arbitrary value `w`,
bracket-laden or not, replacing `[K]` in a bracket-free context yields
`pre ++ w ++ post` with scanning resuming after `w` (first conjunct).
Beyond that single pass the value is not protected: tokens of later
keys occurring in the inserted text are replaced in the same loop, and
any grammar token remaining after the per-run pass triggers the
whole-string fallback.  When the per-run result carries no grammar
token, the value therefore appears verbatim in the final paragraph,
shown for an arbitrary mapping with grammar-name keys iterating as
`m₁`, then `(K, v)`, then `m₂`, with the earlier keys differing from
`K` (second conjunct). -/
theorem C8_value_insertion (σ : Option Nat) (K pre post v : String)
    (m m₁ m₂ : List (String × String))
    (hK2 : ∀ c ∈ K.data, isTok c = true)
    (hkeys : ∀ kv ∈ m, ∀ c ∈ kv.1.data, isTok c = true)
    (hkeysne : ∀ kv ∈ m, kv.1.data ≠ [])
    (hpre : ∀ c ∈ pre.data, c ≠ '[') (hpost : ∀ c ∈ post.data, c ≠ '[')
    (hsplit : nonLinkKeys m = m₁ ++ (K, v) :: m₂)
    (hm₁ : ∀ kv ∈ m₁, kv.1 ≠ K)
    (hnotok : pyFindTokens (pre ++ v ++ post) = []) :
    (∀ w : String, pyReplace (pre ++ ("[" ++ K ++ "]") ++ post) ("[" ++ K ++ "]") w =
        pre ++ w ++ post) ∧
      replaceInParagraph [⟨σ, pre ++ ("[" ++ K ++ "]") ++ post⟩] m =
        ([PElem.run σ (pre ++ v ++ post)], []) := by
  constructor
  · intro w
    show String.mk (replL (pattL K.data) w.data (pre.data ++ pattL K.data ++ post.data)) =
      pre ++ w ++ post
    rw [replL_ctx hpre (fun hmem => hpost '[' hmem rfl)]
    exact congrArg String.mk (List.append_assoc pre.data w.data post.data).symm
  · exact single_run_ctx_core σ K pre post v m m₁ m₂ hK2 hkeys hkeysne hpre hpost
      hsplit hm₁ hnotok

theorem C8_value_insertion_w :
    pyReplace ("x " ++ ("[" ++ "A" ++ "]") ++ " y") ("[" ++ "A" ++ "]") "[A[" =
        "x " ++ "[A[" ++ " y" ∧
      replaceInParagraph [⟨some 2, "x " ++ ("[" ++ "A" ++ "]") ++ " y"⟩]
          [("Z", "q"), ("A", "a[b]c"), ("B", "w")] =
        ([PElem.run (some 2) ("x " ++ "a[b]c" ++ " y")], []) := by
  have h := C8_value_insertion (some 2) "A" "x " " y" "a[b]c"
    [("Z", "q"), ("A", "a[b]c"), ("B", "w")] [("Z", "q")] [("B", "w")]
    (by decide) (by decide) (by decide) (by decide) (by decide)
    (by decide) (by decide) (by decide)
  exact ⟨h.1 "[A[", h.2⟩

/-- C5 amended: for any paragraph whose flattened text contains
`[LINK_DRIVE]` and any mapping with grammar-name keys whose LINK_DRIVE
field is empty, provided the download branch does not fire, the link
branch is skipped but the paragraph is NOT otherwise unchanged: the
token still matches the placeholder grammar after the per-run pass, so
the fallback rebuilds the paragraph as a single default-styled run of
the whole-string substitution and emits a warning whose token list
names LINK_DRIVE; the literal token text survives in the flattened
output. -/
theorem C5_empty_url_fallback (runs : List Run) (m : List (String × String))
    (hcont : pyContains (flatten runs) "[LINK_DRIVE]" = true)
    (hempty : lookupStr m "LINK_DRIVE" = "")
    (hdl : ¬ downloadCond runs m)
    (hkeys : ∀ kv ∈ m, ∀ x ∈ kv.1.data, isTok x = true) :
    replaceInParagraph runs m =
        ([PElem.run none (substAll (nonLinkKeys m) (flatten (plainRuns runs m)))],
          [pyFindTokens (flatten (plainRuns runs m))]) ∧
      "LINK_DRIVE" ∈ pyFindTokens (flatten (plainRuns runs m)) ∧
      pyContains (flattenElems (replaceInParagraph runs m).1) "[LINK_DRIVE]" = true := by
  have hd : ¬ driveCond runs m := fun hdc => hdc.2 hempty
  have hcontL : containsL (pattL "LINK_DRIVE".data) (flatten runs).data = true := hcont
  have hkeysL : ∀ kv' ∈ (nonLinkKeys m).map (fun kv => (kv.1.data, kv.2.data)),
      (∀ x ∈ kv'.1, isTok x = true) ∧ kv'.1 ≠ "LINK_DRIVE".data := by
    intro kv' hkv'
    obtain ⟨kv, hkv, rfl⟩ := List.mem_map.mp hkv'
    have hmf := List.mem_filter.mp hkv
    refine ⟨hkeys kv hmf.1, fun he => ?_⟩
    have he' : kv.1 = "LINK_DRIVE" := str_data_inj he
    have hc2 := hmf.2
    rw [he'] at hc2
    exact absurd hc2 (by decide)
  have hpr : (flatten (plainRuns runs m)).data =
      joinL ((runs.map fun r => r.text.data).map
        (substAllL ((nonLinkKeys m).map fun kv => (kv.1.data, kv.2.data)))) := by
    unfold plainRuns
    rw [flatten_data, List.map_map, List.map_map]
    congr 1
    exact List.map_congr_left (fun r _ => substAll_data (nonLinkKeys m) r.text)
  have hoccP : containsL (pattL "LINK_DRIVE".data) (flatten (plainRuns runs m)).data = true := by
    rw [hpr]
    apply joinL_keep_occ (by decide) hkeysL
    rw [← flatten_data]
    exact hcontL
  have hmem : "LINK_DRIVE" ∈ pyFindTokens (flatten (plainRuns runs m)) :=
    List.mem_map.mpr ⟨"LINK_DRIVE".data, findTokensL_mem (by decide) (by decide) hoccP, rfl⟩
  have hne : pyFindTokens (flatten (plainRuns runs m)) ≠ [] := List.ne_nil_of_mem hmem
  have heq : replaceInParagraph runs m =
      ([PElem.run none (substAll (nonLinkKeys m) (flatten (plainRuns runs m)))],
        [pyFindTokens (flatten (plainRuns runs m))]) := by
    unfold replaceInParagraph
    rw [if_neg hd, if_neg hdl]
    unfold plainPath
    rw [if_neg (by
      rw [isEmpty_false_of_ne_nil hne]
      exact Bool.false_ne_true)]
  refine ⟨heq, hmem, ?_⟩
  rw [heq]
  show containsL (pattL "LINK_DRIVE".data)
    ((substAll (nonLinkKeys m) (flatten (plainRuns runs m)) ++ "").data) = true
  rw [append_empty_str, substAll_data]
  exact substAllL_keep_occ (by decide) hkeysL hoccP

theorem C5_empty_url_fallback_w :
    replaceInParagraph [⟨some 1, "x [LINK_DRIVE] y"⟩]
        [("NOME_EMPRESA_CLIENTE", "ACME"), ("LINK_DRIVE", "")] =
      ([PElem.run none "x [LINK_DRIVE] y"], [["LINK_DRIVE"]]) := by
  have h := C5_empty_url_fallback [⟨some 1, "x [LINK_DRIVE] y"⟩]
    [("NOME_EMPRESA_CLIENTE", "ACME"), ("LINK_DRIVE", "")]
    (by decide) (by decide) (by decide) (by decide)
  exact h.1.trans (by decide)

/-- C10 amended: in each of the three substitution paths, an
occurrence of a plain token `[K]` with empty mapping value standing in
bracket-free context is replaced by the empty string (deleted, not
left in place), for an arbitrary grammar key `K`, arbitrary styles and
arbitrary bracket-free surrounding text: the per-run path rewrites the
run to the concatenated context (style kept, no warning), the
link-segment path deletes the token from its segment (no warning), and
the whole-string fallback path deletes it from the rebuilt run while
warning exactly about the spanning token.  (Link tokens with empty URL
are skipped rather than erased, and without the bracket-free proviso
substitution of other keys' values may re-create the token.) -/
theorem C10_empty_value_paths (σ τ : Option Nat) (K a b c url : String)
    (hK1 : K.data ≠ []) (hK2 : ∀ x ∈ K.data, isTok x = true)
    (hKnl : linkKeyNames.contains K = false)
    (ha : ∀ x ∈ a.data, x ≠ '[' ∧ x ≠ ']')
    (hb : ∀ x ∈ b.data, x ≠ '[' ∧ x ≠ ']')
    (hc : ∀ x ∈ c.data, x ≠ '[' ∧ x ≠ ']')
    (hurl : url ≠ "") :
    replaceInParagraph [⟨σ, a ++ ("[" ++ K ++ "]") ++ b⟩] [(K, "")] =
        ([PElem.run σ (a ++ b)], []) ∧
      ((replaceInParagraph [⟨σ, a ++ ("[" ++ (K ++ ("]" ++ (b ++ ("[LINK_DRIVE]" ++ c)))))⟩]
          [(K, ""), ("LINK_DRIVE", url)]).2 = ([] : List (List String)) ∧
        flattenElems (replaceInParagraph
          [⟨σ, a ++ ("[" ++ (K ++ ("]" ++ (b ++ ("[LINK_DRIVE]" ++ c)))))⟩]
          [(K, ""), ("LINK_DRIVE", url)]).1 = a ++ b ++ c) ∧
      replaceInParagraph [⟨σ, a ++ ("[" ++ K)⟩, ⟨τ, "]" ++ b⟩] [(K, "")] =
        ([PElem.run none (a ++ b)], [[K]]) := by
  have hKD : K ≠ "LINK_DRIVE" := fun he => absurd (he ▸ hKnl) (by decide)
  have hKP : K ≠ "LINK_PARA_DOWNLOAD" := fun he => absurd (he ▸ hKnl) (by decide)
  have hnlK : nonLinkKeys [(K, "")] = [(K, "")] := by
    show List.filter (fun kv => !(linkKeyNames.contains kv.1)) [(K, "")] = [(K, "")]
    rw [List.filter_cons]
    rw [show (!(linkKeyNames.contains (K, ("" : String)).1)) = true from by
      show (!(linkKeyNames.contains K)) = true
      rw [hKnl]
      rfl]
    rfl
  have hnl2 : nonLinkKeys [(K, ""), ("LINK_DRIVE", url)] = [(K, "")] := by
    show List.filter (fun kv => !(linkKeyNames.contains kv.1))
      [(K, ""), ("LINK_DRIVE", url)] = [(K, "")]
    rw [List.filter_cons, List.filter_cons]
    rw [show (!(linkKeyNames.contains (K, ("" : String)).1)) = true from by
      show (!(linkKeyNames.contains K)) = true
      rw [hKnl]
      rfl]
    rw [show (!(linkKeyNames.contains ("LINK_DRIVE", url).1)) = false from rfl]
    rfl
  -- path 1: per-run substitution
  have hsplit1 : nonLinkKeys [(K, "")] = [] ++ (K, "") :: [] := by
    rw [hnlK]
    rfl
  have hnotok1 : pyFindTokens (a ++ "" ++ b) = [] := by
    show (findTokensL ((a.data ++ []) ++ b.data)).map String.mk = []
    rw [show (a.data ++ []) ++ b.data = a.data ++ b.data from by rw [List.append_nil]]
    rw [show findTokensL (a.data ++ b.data) = findTokensL b.data from
      findTokensL_zone (fun x hx => (ha x hx).1) b.data]
    rw [show findTokensL b.data = findTokensL ([] : List Char) from by
      have h0 := findTokensL_zone (fun x hx => (hb x hx).1) ([] : List Char)
      rw [List.append_nil] at h0
      exact h0]
    rfl
  have hp1 : replaceInParagraph [⟨σ, a ++ ("[" ++ K ++ "]") ++ b⟩] [(K, "")] =
      ([PElem.run σ (a ++ b)], []) := by
    have h1 := single_run_ctx_core σ K a b "" [(K, "")] [] [] hK2
      (by
        intro kv hkv
        rcases List.mem_cons.mp hkv with he | hm
        · rw [he]; exact hK2
        · exact absurd hm (List.not_mem_nil _))
      (by
        intro kv hkv
        rcases List.mem_cons.mp hkv with he | hm
        · rw [he]; exact hK1
        · exact absurd hm (List.not_mem_nil _))
      (fun x hx => (ha x hx).1) (fun x hx => (hb x hx).1)
      hsplit1 (fun kv hkv => absurd hkv (List.not_mem_nil _)) hnotok1
    rw [show ((a ++ "" ++ b) : String) = a ++ b from by rw [append_empty_str]] at h1
    exact h1
  -- path 2: link-segment substitution
  have hlu : lookupStr [(K, ""), ("LINK_DRIVE", url)] "LINK_DRIVE" = url := by
    unfold lookupStr
    rw [List.lookup, show (("LINK_DRIVE" == K) : Bool) = false from
      beq_eq_false_iff_ne.mpr (fun he => hKD he.symm)]
    rfl
  have hdc2 : driveCond [⟨σ, a ++ ("[" ++ (K ++ ("]" ++ (b ++ ("[LINK_DRIVE]" ++ c)))))⟩]
      [(K, ""), ("LINK_DRIVE", url)] := by
    refine ⟨?_, ?_⟩
    · rw [flatten_single]
      show containsL (pattL "LINK_DRIVE".data)
        (a.data ++ ('[' :: (K.data ++ (']' ::
          (b.data ++ (pattL "LINK_DRIVE".data ++ c.data)))))) = true
      apply containsL_append_right
      apply containsL_cons_of
      apply containsL_append_right
      apply containsL_cons_of
      apply containsL_append_right
      exact containsL_iff.mpr ⟨[], c.data, by rw [List.nil_append]⟩
    · rw [hlu]
      exact hurl
  have h2eq : replaceInParagraph
      [⟨σ, a ++ ("[" ++ (K ++ ("]" ++ (b ++ ("[LINK_DRIVE]" ++ c)))))⟩]
      [(K, ""), ("LINK_DRIVE", url)] =
      (linkParts (nonLinkKeys [(K, ""), ("LINK_DRIVE", url)])
        (lookupStr [(K, ""), ("LINK_DRIVE", url)] "LINK_DRIVE")
        (if lookupStr [(K, ""), ("LINK_DRIVE", url)] "LINK_DRIVE_TEXT" = "" then "Link Drive"
         else lookupStr [(K, ""), ("LINK_DRIVE", url)] "LINK_DRIVE_TEXT")
        (pySplit (flatten [⟨σ, a ++ ("[" ++ (K ++ ("]" ++ (b ++ ("[LINK_DRIVE]" ++ c)))))⟩])
          "[LINK_DRIVE]"), []) := by
    unfold replaceInParagraph
    rw [if_pos hdc2]
  have hsp : pySplit (flatten [⟨σ, a ++ ("[" ++ (K ++ ("]" ++ (b ++ ("[LINK_DRIVE]" ++ c)))))⟩])
      "[LINK_DRIVE]" = [a ++ ("[" ++ (K ++ ("]" ++ b))), c] := by
    rw [flatten_single]
    show (splitOnL (pattL "LINK_DRIVE".data)
        (a.data ++ ('[' :: (K.data ++ (']' ::
          (b.data ++ (pattL "LINK_DRIVE".data ++ c.data))))))).map String.mk =
      [a ++ ("[" ++ (K ++ ("]" ++ b))), c]
    rw [splitL_ctx hK2 (by decide) (fun he => hKD (str_data_inj he).symm)
      (fun x hx => (ha x hx).1) (fun x hx => (hb x hx).1) (fun x hx => (hc x hx).1)]
    rfl
  have hsub1 : substAll [(K, "")] (a ++ ("[" ++ (K ++ ("]" ++ b)))) = a ++ b := by
    show String.mk (replL (pattL K.data) []
      (a.data ++ ('[' :: (K.data ++ (']' :: b.data))))) = a ++ b
    rw [replL_ctx_r (fun x hx => (ha x hx).1) (fun hmem => (hb '[' hmem).1 rfl)]
    rfl
  have hcopen : '[' ∉ c.data := fun hmem => (hc '[' hmem).1 rfl
  have hp2a : (replaceInParagraph
      [⟨σ, a ++ ("[" ++ (K ++ ("]" ++ (b ++ ("[LINK_DRIVE]" ++ c)))))⟩]
      [(K, ""), ("LINK_DRIVE", url)]).2 = ([] : List (List String)) := by
    rw [h2eq]
  have hp2b : flattenElems (replaceInParagraph
      [⟨σ, a ++ ("[" ++ (K ++ ("]" ++ (b ++ ("[LINK_DRIVE]" ++ c)))))⟩]
      [(K, ""), ("LINK_DRIVE", url)]).1 = a ++ b ++ c := by
    rw [h2eq]
    show flattenElems (linkParts (nonLinkKeys [(K, ""), ("LINK_DRIVE", url)])
        (lookupStr [(K, ""), ("LINK_DRIVE", url)] "LINK_DRIVE")
        (if lookupStr [(K, ""), ("LINK_DRIVE", url)] "LINK_DRIVE_TEXT" = "" then "Link Drive"
         else lookupStr [(K, ""), ("LINK_DRIVE", url)] "LINK_DRIVE_TEXT")
        (pySplit (flatten [⟨σ, a ++ ("[" ++ (K ++ ("]" ++ (b ++ ("[LINK_DRIVE]" ++ c)))))⟩])
          "[LINK_DRIVE]")) = a ++ b ++ c
    rw [flattenElems_linkParts, hsp, hnl2]
    show substAll [(K, "")] (a ++ ("[" ++ (K ++ ("]" ++ b)))) ++
      (substAll [(K, "")] c ++ "") = a ++ b ++ c
    rw [hsub1, substAll_no_open [(K, "")] hcopen, append_empty_str]
  -- path 3: whole-string fallback
  have hT3 : (flatten [⟨σ, a ++ ("[" ++ K)⟩, ⟨τ, "]" ++ b⟩]).data =
      a.data ++ ('[' :: (K.data ++ (']' :: b.data))) := by
    show (a.data ++ ('[' :: K.data)) ++ ((']' :: b.data) ++ []) = _
    rw [List.append_nil, List.append_assoc]
    rfl
  have hdc3 : ¬ driveCond [⟨σ, a ++ ("[" ++ K)⟩, ⟨τ, "]" ++ b⟩] [(K, "")] := by
    apply driveCond_false
    apply bool_false_of_not
    intro hcon
    have hcon0 : containsL (pattL "LINK_DRIVE".data)
        (flatten [⟨σ, a ++ ("[" ++ K)⟩, ⟨τ, "]" ++ b⟩]).data = true := hcon
    rw [hT3] at hcon0
    exact hKD (str_data_inj (patt_in_ctx_r hK2 (by decide)
      (fun x hx => (ha x hx).1) (fun x hx => (hb x hx).1) hcon0)).symm
  have hdlc3 : ¬ downloadCond [⟨σ, a ++ ("[" ++ K)⟩, ⟨τ, "]" ++ b⟩] [(K, "")] := by
    apply downloadCond_false
    apply bool_false_of_not
    intro hcon
    have hcon0 : containsL (pattL "LINK_PARA_DOWNLOAD".data)
        (flatten [⟨σ, a ++ ("[" ++ K)⟩, ⟨τ, "]" ++ b⟩]).data = true := hcon
    rw [hT3] at hcon0
    exact hKP (str_data_inj (patt_in_ctx_r hK2 (by decide)
      (fun x hx => (ha x hx).1) (fun x hx => (hb x hx).1) hcon0)).symm
  have hr1 : substAll (nonLinkKeys [(K, "")]) (a ++ ("[" ++ K)) = a ++ ("[" ++ K) := by
    rw [hnlK]
    apply substAll_no_close
    intro hmem
    have hmem' : ']' ∈ a.data ++ ('[' :: K.data) := hmem
    rcases List.mem_append.mp hmem' with hx | hx
    · exact (ha ']' hx).2 rfl
    · rcases List.mem_cons.mp hx with he | hm
      · exact absurd he (by decide)
      · exact tok_ne_close (hK2 ']' hm) rfl
  have hr2 : substAll (nonLinkKeys [(K, "")]) ("]" ++ b) = "]" ++ b := by
    rw [hnlK]
    apply substAll_no_open
    intro hmem
    have hmem' : '[' ∈ (']' :: b.data) := hmem
    rcases List.mem_cons.mp hmem' with he | hm
    · exact absurd he (by decide)
    · exact (hb '[' hm).1 rfl
  have hpr3 : plainRuns [⟨σ, a ++ ("[" ++ K)⟩, ⟨τ, "]" ++ b⟩] [(K, "")] =
      [⟨σ, a ++ ("[" ++ K)⟩, ⟨τ, "]" ++ b⟩] := by
    unfold plainRuns
    rw [List.map_cons, List.map_cons, List.map_nil, hr1, hr2]
  have hft : pyFindTokens (flatten [⟨σ, a ++ ("[" ++ K)⟩, ⟨τ, "]" ++ b⟩]) = [K] := by
    show (findTokensL (flatten [⟨σ, a ++ ("[" ++ K)⟩, ⟨τ, "]" ++ b⟩]).data).map String.mk =
      [K]
    rw [hT3, findTokensL_ctx hK1 hK2 (fun x hx => (ha x hx).1) (fun x hx => (hb x hx).1)]
    rfl
  have hsubT : substAll (nonLinkKeys [(K, "")])
      (flatten [⟨σ, a ++ ("[" ++ K)⟩, ⟨τ, "]" ++ b⟩]) = a ++ b := by
    rw [hnlK]
    show String.mk (replL (pattL K.data) []
      (flatten [⟨σ, a ++ ("[" ++ K)⟩, ⟨τ, "]" ++ b⟩]).data) = a ++ b
    rw [hT3, replL_ctx_r (fun x hx => (ha x hx).1) (fun hmem => (hb '[' hmem).1 rfl)]
    rfl
  have hp3 : replaceInParagraph [⟨σ, a ++ ("[" ++ K)⟩, ⟨τ, "]" ++ b⟩] [(K, "")] =
      ([PElem.run none (a ++ b)], [[K]]) := by
    unfold replaceInParagraph
    rw [if_neg hdc3, if_neg hdlc3]
    unfold plainPath
    rw [hpr3, hft]
    rw [if_neg (show ¬ (([K] : List String).isEmpty = true) from
      fun hh => Bool.false_ne_true hh)]
    rw [hsubT]
  exact ⟨hp1, ⟨hp2a, hp2b⟩, hp3⟩

theorem C10_empty_value_paths_w :
    replaceInParagraph [⟨some 1, "x " ++ ("[" ++ "DEMANDA" ++ "]") ++ " y"⟩] [("DEMANDA", "")] =
        ([PElem.run (some 1) ("x " ++ " y")], []) ∧
      ((replaceInParagraph
          [⟨some 1, "x " ++ ("[" ++ ("DEMANDA" ++ ("]" ++ (" y" ++ ("[LINK_DRIVE]" ++ " z")))))⟩]
          [("DEMANDA", ""), ("LINK_DRIVE", "https://u")]).2 = ([] : List (List String)) ∧
        flattenElems (replaceInParagraph
          [⟨some 1, "x " ++ ("[" ++ ("DEMANDA" ++ ("]" ++ (" y" ++ ("[LINK_DRIVE]" ++ " z")))))⟩]
          [("DEMANDA", ""), ("LINK_DRIVE", "https://u")]).1 = "x " ++ " y" ++ " z") ∧
      replaceInParagraph [⟨some 1, "x " ++ ("[" ++ "DEMANDA")⟩, ⟨some 2, "]" ++ " y"⟩]
          [("DEMANDA", "")] =
        ([PElem.run none ("x " ++ " y")], [["DEMANDA"]]) :=
  C10_empty_value_paths (some 1) (some 2) "DEMANDA" "x " " y" " z" "https://u"
    (by decide) (by decide) (by decide) (by decide) (by decide) (by decide) (by decide)

end Relatorio
